import Mathlib

/-!
Shallow embedding of the `keep94/attachments` repository: a content-addressed,
per-owner-encrypted, immutable attachment store.

Go strings are modelled as `List Char`, byte slices as `List Nat` (each entry a
byte value).  The SHA-256 hash and the AES-256 block cipher are external library
primitives of the Go standard library, so they enter the embedding as explicit
function parameters (`sha : Bytes → Bytes`, `E : Bytes → Bytes → Bytes`); the
CFB stream mode, IV derivation, hex codec, path codec, metadata store and the
filesystem facade are all translated from the repository's source.
-/

namespace Attachments

abbrev Bytes := List Nat

abbrev Str := List Char

deriving instance DecidableEq for Except

/-- Byte-wise XOR of two byte strings, truncating to the shorter one
(mirrors `cipher.StreamWriter`/`StreamReader` XOR application). -/
def xorBytes (a b : Bytes) : Bytes := List.zipWith Nat.xor a b

/-- One lowercase hex digit, as produced by Go `encoding/hex`. -/
def hexDig (d : Nat) : Char := if d < 10 then Char.ofNat (48 + d) else Char.ofNat (87 + d)

/-- Model of `hex.EncodeToString`: two lowercase hex digits per byte. -/
def hexEncode (b : Bytes) : Str :=
  b.flatMap (fun n => [hexDig (n / 16 % 16), hexDig (n % 16)])

/-- Value of one hex digit, accepting upper and lower case as Go `hex.DecodeString` does. -/
def hexVal (c : Char) : Option Nat :=
  if 48 ≤ c.toNat ∧ c.toNat ≤ 57 then some (c.toNat - 48)
  else if 97 ≤ c.toNat ∧ c.toNat ≤ 102 then some (c.toNat - 87)
  else if 65 ≤ c.toNat ∧ c.toNat ≤ 70 then some (c.toNat - 55)
  else none

/-- Model of `hex.DecodeString`: fails on odd length or any non-hex character. -/
def hexDecode : Str → Option Bytes
  | [] => some []
  | [_] => none
  | a :: b :: rest =>
    match hexVal a, hexVal b, hexDecode rest with
    | some x, some y, some r => some ((16 * x + y) :: r)
    | _, _, _ => none

/-- One decimal digit character. -/
def decDig (d : Nat) : Char := Char.ofNat (48 + d)

def natDecAux : Nat → Nat → Str
  | 0, _ => []
  | fuel + 1, n =>
    if n < 10 then [decDig n]
    else natDecAux fuel (n / 10) ++ [decDig (n % 10)]

/-- Decimal rendering of a natural number, as Go `fmt.Sprintf` `%d` produces
(structural recursion through a fuel argument that is always sufficient). -/
def natDec (n : Nat) : Str := natDecAux (n + 1) n

/-- Decimal rendering of an `int64` value (`%d`). -/
def intToDec (i : Int) : Str :=
  if i < 0 then '-' :: natDec (-i).toNat else natDec i.toNat

/-- Model of `strconv.ParseInt(s, 10, 64)`: optional single sign, decimal digits,
result must fit in a signed 64-bit integer; `none` models a parse error. -/
def digitsVal (digits : Str) : Nat :=
  digits.foldl (fun acc c => 10 * acc + (c.toNat - 48)) 0

def isDecDigit (c : Char) : Bool := 48 ≤ c.toNat && c.toNat ≤ 57

def parseInt64 (s : Str) : Option Int :=
  let neg : Bool := s.headD 'x' = '-'
  let digits : Str := if s.headD 'x' = '-' ∨ s.headD 'x' = '+' then s.tail else s
  if digits = [] then none
  else if digits.all isDecDigit then
    let n : Nat := digitsVal digits
    let v : Int := if neg then -(n : Int) else (n : Int)
    if -(2 ^ 63) ≤ v ∧ v < 2 ^ 63 then some v else none
  else none

/-- Model of `strings.Split(name, "/")`. -/
def splitSlash : Str → List Str
  | [] => [[]]
  | c :: rest =>
    if c = '/' then [] :: splitSlash rest
    else
      match splitSlash rest with
      | s :: ss => (c :: s) :: ss
      | [] => [[c]]

/-- One element of a slash-separated path is valid when it is neither empty nor
`.` nor `..` (`io/fs.ValidPath` element check). -/
def validElem (e : Str) : Bool := !(e = [] || e = ['.'] || e = ['.', '.'])

/-- Model of `io/fs.ValidPath` over `List Char` (the UTF-8 validity check of the Go
original is vacuous here because `Char` values are always valid scalar values). -/
def validPath (s : Str) : Bool :=
  s = ['.'] || (splitSlash s).all validElem

/-- Model of `parsePath` from `immutablefs.go`: clean relative path, exactly two
slash-separated segments, first segment a base-10 `int64`. -/
def parsePath (name : Str) : Option (Int × Str) :=
  if validPath name then
    match splitSlash name with
    | [a, b] => (parseInt64 a).map (fun i => (i, b))
    | _ => none
  else none

/-- Little-endian 8-byte encoding of an `int64`
(`binary.Write(hash, binary.LittleEndian, owner)`). -/
def int64LE (i : Int) : Bytes :=
  let n := (i % (2 ^ 64 : Int)).toNat
  (List.range 8).map (fun k => n / 256 ^ k % 256)

/-- Model of `iv` from `encfilesystem.go`: SHA-256 of the binary checksum digest followed
by the owner id as a little-endian 8-byte integer, truncated to the AES block
size of 16 bytes.  `sha` is the external SHA-256 primitive. -/
def ivBytes (sha : Bytes → Bytes) (chk : Bytes) (owner : Int) : Bytes :=
  (sha (chk ++ int64LE owner)).take 16

def cfbEncryptAux : Nat → (Bytes → Bytes) → Bytes → Bytes → Bytes
  | 0, _, _, _ => []
  | fuel + 1, E, ivb, p =>
    if p = [] then []
    else
      let c := xorBytes (p.take 16) (E ivb)
      c ++ cfbEncryptAux fuel E c (p.drop 16)

/-- CFB-mode encryption as composed by `cipher.NewCFBEncrypter` +
`cipher.StreamWriter`: for each 16-byte block, the keystream is the block
cipher's forward direction applied to the previous ciphertext block (initially
the IV), XORed into the plaintext.  `E` is the keyed forward block cipher.
(Structural recursion through an always-sufficient fuel argument.) -/
def cfbEncrypt (E : Bytes → Bytes) (ivb : Bytes) (p : Bytes) : Bytes :=
  cfbEncryptAux (p.length + 1) E ivb p

def cfbDecryptAux : Nat → (Bytes → Bytes) → Bytes → Bytes → Bytes
  | 0, _, _, _ => []
  | fuel + 1, E, ivb, c =>
    if c = [] then []
    else xorBytes (c.take 16) (E ivb) ++ cfbDecryptAux fuel E (c.take 16) (c.drop 16)

/-- CFB-mode decryption (`cipher.NewCFBDecrypter` + `cipher.StreamReader`):
identical keystream schedule, chained on the ciphertext blocks. -/
def cfbDecrypt (E : Bytes → Bytes) (ivb : Bytes) (c : Bytes) : Bytes :=
  cfbDecryptAux (c.length + 1) E ivb c

def cfbKSAux : Nat → (Bytes → Bytes) → Bytes → Bytes → Bytes
  | 0, _, _, _ => []
  | fuel + 1, E, ivb, c =>
    if c = [] then []
    else E ivb ++ cfbKSAux fuel E (c.take 16) (c.drop 16)

/-- The CFB keystream consumed while decrypting ciphertext `c` (one forward
block-cipher application per ciphertext block, chained on the ciphertext). -/
def cfbKS (E : Bytes → Bytes) (ivb : Bytes) (c : Bytes) : Bytes :=
  cfbKSAux (c.length + 1) E ivb c

/-- Model of `idToPath` from `encfilesystem.go`:
`"{ownerId}/{first two hex digits of id}/{id}"`.  The Go original panics when
the id is shorter than two characters (a construction-time precondition, never
reached because checksums are 64 hex digits); the embedding is total and all
theorems only apply it to well-formed checksums. -/
def idToPath (id : Str) (ownerId : Int) : Str :=
  intToDec ownerId ++ '/' :: id.take 2 ++ '/' :: id

/-- Errors of the embedding, covering the sentinel values the Go code
produces: `fs.ErrNotExist`, `fs.ErrPermission`, `os.ErrClosed`,
`attachments.ErrNoSuchId`, `aes.KeySizeError`, `hex` decode errors, and opaque
backend failures. -/
inductive Err where
  | notExist
  | permission
  | closed
  | noSuchId
  | keySize
  | invalidHex
  | backend (n : Nat)
deriving DecidableEq, Repr

/-- Model of `fs.PathError` as built by `immutableFS.Open`. -/
structure PathError where
  op : Str
  path : Str
  err : Err
deriving DecidableEq, Repr

/-- The single NotFound outcome of `immutableFS.Open`:
`&fs.PathError{Op: "open", Path: name, Err: fs.ErrNotExist}`. -/
def openErr (name : Str) : PathError :=
  { op := ("open".toList), path := name, err := Err.notExist }

/-- The in-memory blob backend (`fakeFS` in `filesystem.go`): a map from path
to contents, as an association list with unique keys. -/
abbrev InMemFS := List (Str × Bytes)

/-- Map lookup. -/
def fsGet (fs : InMemFS) (name : Str) : Option Bytes :=
  match fs with
  | [] => none
  | (k, v) :: rest => if k = name then some v else fsGet rest name

/-- Map store (`fakeFSWriter.Close` committing the buffered bytes). -/
def fsPut (fs : InMemFS) (name : Str) (v : Bytes) : InMemFS :=
  match fs with
  | [] => [(name, v)]
  | (k, w) :: rest => if k = name then (name, v) :: rest else (k, w) :: fsPut rest name v

/-- An owner: identifier plus optional AES-256 key (`nil` key means no
encryption), the combined `Owner` wiring used by `NewImmutableFS`. -/
structure Owner where
  id : Int
  key : Option Bytes
deriving DecidableEq, Repr

/-- Model of `aesFS.Write`: hash the contents, short-circuit if the blob already exists,
otherwise store the contents (encrypted in CFB mode when a key is configured).
`aes.NewCipher` fails for key lengths other than 16/24/32, before anything is
written.  Returns the hex checksum and the updated backend. -/
def aesWrite (E : Bytes → Bytes → Bytes) (sha : Bytes → Bytes)
    (fs : InMemFS) (o : Owner) (contents : Bytes) : Except Err Str × InMemFS :=
  let binaryId := sha contents
  let id := hexEncode binaryId
  let name := idToPath id o.id
  if (fsGet fs name).isSome then (Except.ok id, fs)
  else
    match o.key with
    | none => (Except.ok id, fsPut fs name contents)
    | some k =>
      if k.length = 16 ∨ k.length = 24 ∨ k.length = 32 then
        (Except.ok id,
         fsPut fs name (cfbEncrypt (E k) (ivBytes sha binaryId o.id) contents))
      else (Except.error Err.keySize, fs)

/-- Model of `aesFS.Open`: locate the blob by checksum; with a key configured, hex-decode
the checksum and stream-decrypt.  The returned bytes model reading the stream
to exhaustion. -/
def aesOpen (E : Bytes → Bytes → Bytes) (sha : Bytes → Bytes)
    (fs : InMemFS) (o : Owner) (checksum : Str) : Except Err Bytes :=
  let name := idToPath checksum o.id
  match o.key with
  | none =>
    match fsGet fs name with
    | some v => Except.ok v
    | none => Except.error Err.notExist
  | some k =>
    match hexDecode checksum with
    | none => Except.error Err.invalidHex
    | some binaryId =>
      match fsGet fs name with
      | some v =>
        if k.length = 16 ∨ k.length = 24 ∨ k.length = 32 then
          Except.ok (cfbDecrypt (E k) (ivBytes sha binaryId o.id) v)
        else Except.error Err.keySize
      | none => Except.error Err.notExist

/-- Model of `Entry` from `immutablefs.go`: the metadata record for one stored file. -/
structure Entry where
  id : Int
  name : Str
  size : Int
  ts : Int
  ownerId : Int
  checksum : Str
deriving DecidableEq, Repr

/-- Model of `Entry.Path`: `fmt.Sprintf` with the `%d/%s` format — the decimal id,
a slash, and the name. -/
def entryPath (e : Entry) : Str :=
  intToDec e.id ++ '/' :: e.name

/-- The in-memory metadata store (`fakeStore`): a slice of entries. -/
abbrev FakeStore := List Entry

/-- Model of `fakeStore.AddEntry`: assign id `len+1`, append, return the new id. -/
def addEntry (store : FakeStore) (e : Entry) : FakeStore × Int :=
  let newId : Int := (store.length : Int) + 1
  (store ++ [{ e with id := newId }], newId)

/-- Model of `fakeStore.EntryById`: index by `id - 1`; out of range or owner mismatch
is the single `ErrNoSuchId` outcome. -/
def entryById (store : FakeStore) (id ownerId : Int) : Except Err Entry :=
  if h : 0 ≤ id - 1 ∧ (id - 1).toNat < store.length then
    let e := store.get ⟨(id - 1).toNat, h.2⟩
    if ownerId ≠ e.ownerId then Except.error Err.noSuchId else Except.ok e
  else Except.error Err.noSuchId

/-- The shared backing state of the system: one blob backend and one metadata
store, shared by the facades of all owners. -/
structure Sys where
  fs : InMemFS
  store : FakeStore
deriving DecidableEq, Repr

/-- Model of `immutableFS.Open`: parse the path, look up the entry by `(id, owner)`,
cross-check the name, open the content store by checksum; every failure is the
single NotFound `PathError` for this path.  A success returns the virtual file:
its entry (backing `Stat`) and the decrypted bytes of its stream. -/
def ifsOpen (E : Bytes → Bytes → Bytes) (sha : Bytes → Bytes)
    (fs : InMemFS) (store : FakeStore) (o : Owner) (name : Str) :
    Except PathError (Entry × Bytes) :=
  let pathErr := openErr name
  match parsePath name with
  | none => Except.error pathErr
  | some (id, baseName) =>
    match entryById store id o.id with
    | Except.error _ => Except.error pathErr
    | Except.ok entry =>
      if baseName ≠ entry.name then Except.error pathErr
      else
        match aesOpen E sha fs o entry.checksum with
        | Except.error _ => Except.error pathErr
        | Except.ok bytes => Except.ok (entry, bytes)

/-- Model of `immutableFS.Write`: store the contents through the content store, then
add the metadata record; `ts` stands for `time.Now().Unix()`. -/
def ifsWrite (E : Bytes → Bytes → Bytes) (sha : Bytes → Bytes)
    (sys : Sys) (o : Owner) (ts : Int) (name : Str) (contents : Bytes) :
    Except Err Int × Sys :=
  match aesWrite E sha sys.fs o contents with
  | (Except.error e, fs') => (Except.error e, { sys with fs := fs' })
  | (Except.ok chk, fs') =>
    let entry : Entry :=
      { id := 0, name := name, size := (contents.length : Int), ts := ts,
        ownerId := o.id, checksum := chk }
    let added := addEntry sys.store entry
    (Except.ok added.2, { fs := fs', store := added.1 })

/-- The loop body of `immutableFS.List` over the id map (modelled as an
association list in iteration order): skip unwanted ids, skip `ErrNoSuchId`,
abort on any other error, collect found entries. -/
def listLoop (lookup : Int → Except Err Entry) : List (Int × Bool) → Except Err (List Entry)
  | [] => Except.ok []
  | (_, false) :: rest => listLoop lookup rest
  | (id, true) :: rest =>
    match lookup id with
    | Except.error Err.noSuchId => listLoop lookup rest
    | Except.error e => Except.error e
    | Except.ok e => (listLoop lookup rest).map (fun l => e :: l)

/-- Insert an entry into a list sorted ascending by id. -/
def insertEntry (e : Entry) : List Entry → List Entry
  | [] => [e]
  | x :: xs => if e.id < x.id then e :: x :: xs else x :: insertEntry e xs

/-- Model of `sort.Slice(result, ...)` ordering the collected entries ascending by id
(insertion sort; it agrees with any correct sort because ids are unique). -/
def sortEntries (l : List Entry) : List Entry := l.foldr insertEntry []

/-- Model of `immutableFS.List` against an abstract lookup (its `Store.EntryById`). -/
def listG (lookup : Int → Except Err Entry) (ids : List (Int × Bool)) :
    Except Err (List Entry) :=
  (listLoop lookup ids).map sortEntries

/-- Model of `immutableFS.List` for the in-memory store of one owner. -/
def ifsList (store : FakeStore) (o : Owner) (ids : List (Int × Bool)) :
    Except Err (List Entry) :=
  listG (fun id => entryById store id o.id) ids

/-- An `ImmutableFS` value: either the base facade for an owner, or the
read-only wrapper `roImmutableFS` around another facade. -/
inductive IFS where
  | base (o : Owner)
  | ro (inner : IFS)
deriving DecidableEq, Repr

/-- The `ReadOnly()` flag: the base facade reports false, the wrapper true. -/
def isReadOnly : IFS → Bool
  | IFS.base _ => false
  | IFS.ro _ => true

/-- The `ReadOnly` constructor: returns an already-read-only facade unchanged,
otherwise adds one wrapper layer. -/
def mkReadOnly (f : IFS) : IFS :=
  if isReadOnly f then f else IFS.ro f

/-- Owner a facade acts for (the wrapper forwards to the wrapped facade). -/
def ownerOf : IFS → Owner
  | IFS.base o => o
  | IFS.ro f => ownerOf f

/-- Method `Write` dispatched on the facade: `roImmutableFS.Write` fails with
`fs.ErrPermission` without invoking the underlying facade (so the system state
is untouched); the base facade delegates to `immutableFS.Write`. -/
def writeFS (E : Bytes → Bytes → Bytes) (sha : Bytes → Bytes)
    (f : IFS) (sys : Sys) (ts : Int) (name : Str) (contents : Bytes) :
    Except Err Int × Sys :=
  match f with
  | IFS.ro _ => (Except.error Err.permission, sys)
  | IFS.base o => ifsWrite E sha sys o ts name contents

/-- Method `Open` dispatched on the facade: forwarded unchanged by the wrapper. -/
def openFS (E : Bytes → Bytes → Bytes) (sha : Bytes → Bytes)
    (f : IFS) (sys : Sys) (name : Str) : Except PathError (Entry × Bytes) :=
  ifsOpen E sha sys.fs sys.store (ownerOf f) name

/-- A name acceptable as the second path segment: a valid, slash-free
path element. -/
def goodName (name : Str) : Prop :=
  '/' ∉ name ∧ name ≠ [] ∧ name ≠ ['.'] ∧ name ≠ ['.', '.']

instance (name : Str) : Decidable (goodName name) := by
  unfold goodName
  infer_instance
/-- A keyed forward block cipher produces 16-byte blocks. -/
def BlockCipher (E : Bytes → Bytes) : Prop := ∀ b, (E b).length = 16
/-- SHA-256 output shape: 32 bytes, each a byte value. -/
def GoodHash (sha : Bytes → Bytes) : Prop :=
  ∀ c, (sha c).length = 32 ∧ ∀ b ∈ sha c, b < 256

/-- An owner configuration as the spec's data model allows: encryption key
absent, or present with exactly the AES-256 key length of 32 bytes. -/
def ValidOwner (o : Owner) : Prop :=
  o.key = none ∨ ∃ k, o.key = some k ∧ k.length = 32

/-- A keyed cipher family: every key yields a 16-byte-block forward cipher. -/
def CipherFam (E : Bytes → Bytes → Bytes) : Prop :=
  ∀ k, BlockCipher (E k)

/-- The physical blob path of contents `c` for owner `o`. -/
def blobPath (sha : Bytes → Bytes) (o : Owner) (c : Bytes) : Str :=
  idToPath (hexEncode (sha c)) o.id
/-- The entry that `immutableFS.Write` adds for `(name, contents)` on a store
of length `L`. -/
def writtenEntry (sha : Bytes → Bytes) (o : Owner) (l : Nat) (ts : Int)
    (name : Str) (contents : Bytes) : Entry :=
  { id := (l : Int) + 1, name := name, size := (contents.length : Int), ts := ts,
    ownerId := o.id, checksum := hexEncode (sha contents) }
/-! ### Store well-formedness (ids are positions + 1, as `AddEntry` assigns) -/

def WFStore (store : FakeStore) : Prop :=
  ∀ i (h : i < store.length), (store.get ⟨i, h⟩).id = (i : Int) + 1
/-! ### Concrete cipher and hash instances used to exhibit witnesses -/

/-- A concrete stand-in for the external SHA-256 primitive: 32 bytes derived
from the content length (satisfies `GoodHash`; collision resistance plays no
role in the statements instantiated with it). -/
def sha0 : Bytes → Bytes := fun c => List.replicate 32 (c.length % 256)

/-- A concrete stand-in for the keyed AES-256 forward block transform:
16 bytes derived from key and block (satisfies `CipherFam`). -/
def E0 : Bytes → Bytes → Bytes :=
  fun k b => List.replicate 16 ((k.headD 0 + b.headD 0 + 1) % 256)

def key32A : Bytes := List.replicate 32 0

def key32B : Bytes := 1 :: List.replicate 31 0

/-! ### Decimal rendering and parsing -/

theorem natDecAux_congr : ∀ f1 f2 n, n < f1 → n < f2 → natDecAux f1 n = natDecAux f2 n := by
  intro f1
  induction f1 with
  | zero =>
    intro f2 n h1
    omega
  | succ f ih =>
    intro f2 n h1 h2
    cases f2 with
    | zero => omega
    | succ g =>
      simp only [natDecAux]
      by_cases hn : n < 10
      · rw [if_pos hn, if_pos hn]
      · rw [if_neg hn, if_neg hn]
        have hd : n / 10 < n := Nat.div_lt_self (by omega) (by omega)
        rw [ih g (n / 10) (by omega) (by omega)]

theorem natDec_eq (n : Nat) :
    natDec n = if n < 10 then [decDig n] else natDec (n / 10) ++ [decDig (n % 10)] := by
  show natDecAux (n + 1) n = _
  simp only [natDecAux]
  by_cases hn : n < 10
  · rw [if_pos hn, if_pos hn]
  · rw [if_neg hn, if_neg hn]
    have hd : n / 10 < n := Nat.div_lt_self (by omega) (by omega)
    rw [natDecAux_congr n (n / 10 + 1) (n / 10) (by omega) (by omega)]
    rfl

theorem decDig_toNat : ∀ d, d < 10 → (decDig d).toNat = 48 + d := by decide

theorem natDec_ne_nil (n : Nat) : natDec n ≠ [] := by
  rw [natDec_eq]
  split <;> simp

theorem natDec_digits (n : Nat) : ∀ c ∈ natDec n, isDecDigit c = true := by
  induction n using Nat.strong_induction_on with
  | _ n ih =>
    rw [natDec_eq]
    split
    case isTrue h =>
      intro c hc
      simp only [List.mem_singleton] at hc
      subst hc
      simp [isDecDigit, decDig_toNat n h]
      omega
    case isFalse h =>
      intro c hc
      rcases List.mem_append.mp hc with h1 | h2
      · exact ih (n / 10) (Nat.div_lt_self (by omega) (by omega)) c h1
      · simp only [List.mem_singleton] at h2
        subst h2
        have h10 : n % 10 < 10 := Nat.mod_lt _ (by omega)
        simp [isDecDigit, decDig_toNat _ h10]
        omega

theorem digitsVal_append (a b : Str) :
    digitsVal (a ++ b) = b.foldl (fun acc c => 10 * acc + (c.toNat - 48)) (digitsVal a) := by
  simp [digitsVal, List.foldl_append]

theorem digitsVal_natDec (n : Nat) : digitsVal (natDec n) = n := by
  induction n using Nat.strong_induction_on with
  | _ n ih =>
    rw [natDec_eq]
    split
    case isTrue h =>
      simp [digitsVal, decDig_toNat n h]
    case isFalse h =>
      rw [digitsVal_append, ih (n / 10) (Nat.div_lt_self (by omega) (by omega))]
      have h10 : n % 10 < 10 := Nat.mod_lt _ (by omega)
      simp [decDig_toNat _ h10]
      omega

theorem natDec_head_digit (n : Nat) :
    isDecDigit ((natDec n).headD 'x') = true := by
  cases hd : natDec n with
  | nil => exact absurd hd (natDec_ne_nil n)
  | cons c rest =>
    have : c ∈ natDec n := by rw [hd]; exact List.mem_cons_self c rest
    simpa using natDec_digits n c this

theorem parseInt64_natDec (n : Nat) (h : n < 2 ^ 63) :
    parseInt64 (natDec n) = some (n : Int) := by
  have hhead := natDec_head_digit n
  have hminus : ¬((natDec n).headD 'x' = '-') := by
    intro hc
    rw [hc] at hhead
    simp [isDecDigit] at hhead
  have hplus : ¬((natDec n).headD 'x' = '+') := by
    intro hc
    rw [hc] at hhead
    simp [isDecDigit] at hhead
  have hcond : ¬((natDec n).headD 'x' = '-' ∨ (natDec n).headD 'x' = '+') := by
    rintro (hc | hc)
    · exact hminus hc
    · exact hplus hc
  rw [parseInt64]
  simp only [if_neg hcond]
  rw [if_neg (natDec_ne_nil n)]
  rw [if_pos (List.all_eq_true.mpr (natDec_digits n))]
  simp only [digitsVal_natDec, decide_eq_false hminus, Bool.false_eq_true, if_false]
  rw [if_pos ?_]
  constructor
  · exact le_trans (by norm_num) (Int.ofNat_nonneg n)
  · exact_mod_cast h

theorem intToDec_nonneg (i : Int) (h : 0 ≤ i) : intToDec i = natDec i.toNat := by
  rw [intToDec, if_neg (by omega)]

theorem parseInt64_intToDec (i : Int) (h0 : 0 ≤ i) (h : i < 2 ^ 63) :
    parseInt64 (intToDec i) = some i := by
  rw [intToDec_nonneg i h0, parseInt64_natDec i.toNat (by omega), Int.toNat_of_nonneg h0]

/-! ### Path splitting and validity -/

theorem splitSlash_ne_nil (s : Str) : splitSlash s ≠ [] := by
  cases s with
  | nil => simp [splitSlash]
  | cons c rest =>
    rw [splitSlash]
    split
    · simp
    · split <;> simp

theorem splitSlash_no_slash (s : Str) (h : '/' ∉ s) : splitSlash s = [s] := by
  induction s with
  | nil => rfl
  | cons c rest ih =>
    have hc : c ≠ '/' := fun hc => h (hc ▸ List.mem_cons_self c rest)
    have hrest : '/' ∉ rest := fun hr => h (List.mem_cons_of_mem c hr)
    rw [splitSlash, if_neg hc, ih hrest]

theorem splitSlash_append (a b : Str) (h : '/' ∉ a) :
    splitSlash (a ++ '/' :: b) = a :: splitSlash b := by
  induction a with
  | nil => simp [splitSlash]
  | cons c rest ih =>
    have hc : c ≠ '/' := fun hc => h (hc ▸ List.mem_cons_self c rest)
    have hrest : '/' ∉ rest := fun hr => h (List.mem_cons_of_mem c hr)
    rw [List.cons_append, splitSlash, if_neg hc, ih hrest]

theorem mem_splitSlash_no_slash (s x : Str) (h : x ∈ splitSlash s) : '/' ∉ x := by
  induction s generalizing x with
  | nil =>
    simp only [splitSlash, List.mem_singleton] at h
    subst h
    simp
  | cons c rest ih =>
    rw [splitSlash] at h
    by_cases hc : c = '/'
    · rw [if_pos hc] at h
      rcases List.mem_cons.mp h with h1 | h2
      · subst h1; simp
      · exact ih x h2
    · rw [if_neg hc] at h
      cases hsp : splitSlash rest with
      | nil => exact absurd hsp (splitSlash_ne_nil rest)
      | cons s0 ss =>
        rw [hsp] at h
        rcases List.mem_cons.mp h with h1 | h2
        · subst h1
          intro hmem
          rcases List.mem_cons.mp hmem with h3 | h4
          · exact hc h3.symm
          · exact ih s0 (hsp ▸ List.mem_cons_self s0 ss) h4
        · exact ih x (hsp ▸ List.mem_cons_of_mem s0 h2)

theorem natDec_no_slash (n : Nat) : '/' ∉ natDec n := by
  intro h
  have := natDec_digits n '/' h
  simp [isDecDigit] at this

theorem natDec_validElem (n : Nat) : validElem (natDec n) = true := by
  have hnil := natDec_ne_nil n
  have hdig := natDec_digits n
  rw [validElem]
  simp only [Bool.not_eq_true']
  have hdot : natDec n ≠ ['.'] := by
    intro hc
    have := hdig '.' (hc ▸ List.mem_cons_self '.' [])
    simp [isDecDigit] at this
  have hdotdot : natDec n ≠ ['.', '.'] := by
    intro hc
    have := hdig '.' (hc ▸ List.mem_cons_self '.' ['.'])
    simp [isDecDigit] at this
  simp [hnil, hdot, hdotdot]

theorem parsePath_canonical (id : Int) (name : Str) (hg : goodName name)
    (h0 : 0 ≤ id) (h63 : id < 2 ^ 63) :
    parsePath (intToDec id ++ '/' :: name) = some (id, name) := by
  obtain ⟨hslash, hnil, hdot, hdotdot⟩ := hg
  rw [intToDec_nonneg id h0]
  have hsplit : splitSlash (natDec id.toNat ++ '/' :: name) = [natDec id.toNat, name] := by
    rw [splitSlash_append _ _ (natDec_no_slash _), splitSlash_no_slash _ hslash]
  have hname : validElem name = true := by
    rw [validElem]
    simp [hnil, hdot, hdotdot]
  have hvalid : validPath (natDec id.toNat ++ '/' :: name) = true := by
    rw [validPath, hsplit]
    simp only [List.all_cons, List.all_nil, Bool.and_true, natDec_validElem, hname,
      Bool.and_self, Bool.or_true]
  have hp : parseInt64 (natDec id.toNat) = some id := by
    rw [← intToDec_nonneg id h0]
    exact parseInt64_intToDec id h0 h63
  rw [parsePath, if_pos hvalid, hsplit]
  simp [hp]

/-! ### Hex codec -/

theorem hexVal_hexDig : ∀ d, d < 16 → hexVal (hexDig d) = some d := by decide

theorem hexDecode_hexEncode (l : Bytes) (h : ∀ b ∈ l, b < 256) :
    hexDecode (hexEncode l) = some l := by
  induction l with
  | nil => rfl
  | cons x rest ih =>
    have hx : x < 256 := h x (List.mem_cons_self x rest)
    have hrest : ∀ b ∈ rest, b < 256 := fun b hb => h b (List.mem_cons_of_mem x hb)
    have hhi : x / 16 % 16 < 16 := Nat.mod_lt _ (by omega)
    have hlo : x % 16 < 16 := Nat.mod_lt _ (by omega)
    rw [hexEncode] at ih ⊢
    simp only [List.flatMap_cons, List.cons_append, List.nil_append]
    rw [hexDecode]
    rw [hexVal_hexDig _ hhi, hexVal_hexDig _ hlo, ih hrest]
    have hx16 : 16 * (x / 16 % 16) + x % 16 = x := by omega
    simp [hx16]

/-! ### In-memory blob backend -/

theorem fsGet_fsPut_self (fs : InMemFS) (n : Str) (v : Bytes) :
    fsGet (fsPut fs n v) n = some v := by
  induction fs with
  | nil => simp [fsPut, fsGet]
  | cons kv rest ih =>
    obtain ⟨k, w⟩ := kv
    rw [fsPut]
    by_cases hk : k = n
    · rw [if_pos hk, fsGet, if_pos rfl]
    · rw [if_neg hk, fsGet, if_neg hk, ih]

/-! ### XOR and CFB stream mode -/

theorem xorBytes_length (a b : Bytes) : (xorBytes a b).length = min a.length b.length := by
  simp [xorBytes]

theorem xorBytes_cancel (a b : Bytes) (h : a.length ≤ b.length) :
    xorBytes (xorBytes a b) b = a := by
  induction a generalizing b with
  | nil => simp [xorBytes]
  | cons x rest ih =>
    cases b with
    | nil => simp at h
    | cons y brest =>
      simp only [xorBytes, List.zipWith_cons_cons]
      congr 1
      · exact Nat.xor_cancel_right y x
      · have := ih brest (by simpa using h)
        simpa [xorBytes] using this

theorem drop16_length_lt (p : Bytes) (hp : p ≠ []) : (p.drop 16).length < p.length := by
  have hpos : 0 < p.length := List.length_pos.mpr hp
  simp [List.length_drop]
  omega

theorem cfbEncryptAux_congr (E : Bytes → Bytes) :
    ∀ f1 f2 ivb p, p.length < f1 → p.length < f2 →
      cfbEncryptAux f1 E ivb p = cfbEncryptAux f2 E ivb p := by
  intro f1
  induction f1 with
  | zero =>
    intro f2 ivb p h1
    omega
  | succ f ih =>
    intro f2 ivb p h1 h2
    cases f2 with
    | zero => omega
    | succ g =>
      simp only [cfbEncryptAux]
      by_cases hp : p = []
      · rw [if_pos hp, if_pos hp]
      · rw [if_neg hp, if_neg hp]
        have hd := drop16_length_lt p hp
        rw [ih g _ (p.drop 16) (by omega) (by omega)]

theorem cfbEncrypt_nil (E : Bytes → Bytes) (ivb : Bytes) : cfbEncrypt E ivb [] = [] := rfl

theorem cfbEncrypt_ne_nil (E : Bytes → Bytes) (ivb p : Bytes) (hp : p ≠ []) :
    cfbEncrypt E ivb p =
      xorBytes (p.take 16) (E ivb) ++
        cfbEncrypt E (xorBytes (p.take 16) (E ivb)) (p.drop 16) := by
  show cfbEncryptAux (p.length + 1) E ivb p = _
  simp only [cfbEncryptAux]
  rw [if_neg hp]
  have hd := drop16_length_lt p hp
  rw [cfbEncryptAux_congr E p.length ((p.drop 16).length + 1) _ (p.drop 16) (by omega) (by omega)]
  rfl

theorem cfbDecryptAux_congr (E : Bytes → Bytes) :
    ∀ f1 f2 ivb c, c.length < f1 → c.length < f2 →
      cfbDecryptAux f1 E ivb c = cfbDecryptAux f2 E ivb c := by
  intro f1
  induction f1 with
  | zero =>
    intro f2 ivb c h1
    omega
  | succ f ih =>
    intro f2 ivb c h1 h2
    cases f2 with
    | zero => omega
    | succ g =>
      simp only [cfbDecryptAux]
      by_cases hc : c = []
      · rw [if_pos hc, if_pos hc]
      · rw [if_neg hc, if_neg hc]
        have hd := drop16_length_lt c hc
        rw [ih g _ (c.drop 16) (by omega) (by omega)]

theorem cfbDecrypt_nil (E : Bytes → Bytes) (ivb : Bytes) : cfbDecrypt E ivb [] = [] := rfl

theorem cfbDecrypt_ne_nil (E : Bytes → Bytes) (ivb c : Bytes) (hc : c ≠ []) :
    cfbDecrypt E ivb c =
      xorBytes (c.take 16) (E ivb) ++ cfbDecrypt E (c.take 16) (c.drop 16) := by
  show cfbDecryptAux (c.length + 1) E ivb c = _
  simp only [cfbDecryptAux]
  rw [if_neg hc]
  have hd := drop16_length_lt c hc
  rw [cfbDecryptAux_congr E c.length ((c.drop 16).length + 1) _ (c.drop 16) (by omega) (by omega)]
  rfl

theorem cfbKSAux_congr (E : Bytes → Bytes) :
    ∀ f1 f2 ivb c, c.length < f1 → c.length < f2 →
      cfbKSAux f1 E ivb c = cfbKSAux f2 E ivb c := by
  intro f1
  induction f1 with
  | zero =>
    intro f2 ivb c h1
    omega
  | succ f ih =>
    intro f2 ivb c h1 h2
    cases f2 with
    | zero => omega
    | succ g =>
      simp only [cfbKSAux]
      by_cases hc : c = []
      · rw [if_pos hc, if_pos hc]
      · rw [if_neg hc, if_neg hc]
        have hd := drop16_length_lt c hc
        rw [ih g _ (c.drop 16) (by omega) (by omega)]

theorem cfbKS_nil (E : Bytes → Bytes) (ivb : Bytes) : cfbKS E ivb [] = [] := rfl

theorem cfbKS_ne_nil (E : Bytes → Bytes) (ivb c : Bytes) (hc : c ≠ []) :
    cfbKS E ivb c = E ivb ++ cfbKS E (c.take 16) (c.drop 16) := by
  show cfbKSAux (c.length + 1) E ivb c = _
  simp only [cfbKSAux]
  rw [if_neg hc]
  have hd := drop16_length_lt c hc
  rw [cfbKSAux_congr E c.length ((c.drop 16).length + 1) _ (c.drop 16) (by omega) (by omega)]
  rfl

theorem cfb_roundtrip_aux (E : Bytes → Bytes) (hE : BlockCipher E) :
    ∀ n (p ivb : Bytes), p.length ≤ n → cfbDecrypt E ivb (cfbEncrypt E ivb p) = p := by
  intro n
  induction n with
  | zero =>
    intro p ivb hp
    have : p = [] := List.eq_nil_of_length_eq_zero (by omega)
    subst this
    rw [cfbEncrypt_nil, cfbDecrypt_nil]
  | succ n ih =>
    intro p ivb hp
    by_cases hpn : p = []
    · subst hpn
      rw [cfbEncrypt_nil, cfbDecrypt_nil]
    · rw [cfbEncrypt_ne_nil E ivb p hpn]
      set c := xorBytes (p.take 16) (E ivb) with hc
      have hclen : c.length = min p.length 16 := by
        rw [hc, xorBytes_length, List.length_take, hE ivb]
        omega
      have hcnil : c ≠ [] := by
        intro hnil
        have h1 := congrArg List.length hnil
        rw [hclen] at h1
        simp only [List.length_nil] at h1
        have hppos : 0 < p.length := List.length_pos.mpr hpn
        omega
      by_cases hlen : p.length ≤ 16
      · have hdrop : p.drop 16 = [] := List.drop_eq_nil_of_le (by omega)
        rw [hdrop, cfbEncrypt_nil, List.append_nil]
        rw [cfbDecrypt_ne_nil E ivb c hcnil]
        have htake : c.take 16 = c := List.take_of_length_le (by omega)
        have hdrop2 : c.drop 16 = [] := List.drop_eq_nil_of_le (by omega)
        rw [htake, hdrop2, cfbDecrypt_nil, List.append_nil, hc]
        rw [xorBytes_cancel _ _ (by rw [List.length_take, hE ivb]; omega)]
        exact List.take_of_length_le (by omega)
      · have hclen16 : c.length = 16 := by omega
        rw [cfbDecrypt_ne_nil E ivb _ (by simp [hcnil])]
        rw [List.take_append_of_le_length (by omega), List.drop_append_of_le_length (by omega)]
        have htake : c.take 16 = c := List.take_of_length_le (by omega)
        have hdrop16 : c.drop 16 = [] := List.drop_eq_nil_of_le (by omega)
        rw [htake, hdrop16]
        simp only [List.nil_append]
        rw [hc, xorBytes_cancel _ _ (by rw [List.length_take, hE ivb]; omega)]
        rw [← hc, ih (p.drop 16) c (by simp [List.length_drop]; omega)]
        exact List.take_append_drop 16 p

/-- CFB decryption inverts CFB encryption under the same key and IV. -/
theorem cfb_roundtrip (E : Bytes → Bytes) (hE : BlockCipher E) (ivb p : Bytes) :
    cfbDecrypt E ivb (cfbEncrypt E ivb p) = p :=
  cfb_roundtrip_aux E hE p.length p ivb le_rfl

theorem cfbEncrypt_length (E : Bytes → Bytes) (hE : BlockCipher E) :
    ∀ n (p ivb : Bytes), p.length ≤ n → (cfbEncrypt E ivb p).length = p.length := by
  intro n
  induction n with
  | zero =>
    intro p ivb hp
    have : p = [] := List.eq_nil_of_length_eq_zero (by omega)
    subst this
    rw [cfbEncrypt_nil]
  | succ n ih =>
    intro p ivb hp
    by_cases hpn : p = []
    · subst hpn
      rw [cfbEncrypt_nil]
    · rw [cfbEncrypt_ne_nil E ivb p hpn]
      have hpos : 0 < p.length := List.length_pos.mpr hpn
      rw [List.length_append, xorBytes_length, List.length_take, hE ivb,
        ih (p.drop 16) _ (by simp [List.length_drop]; omega)]
      simp [List.length_drop]
      omega

theorem zipWith_append_of_le {α : Type} (f : α → α → α) :
    ∀ (a c d : List α), a.length ≤ c.length →
      List.zipWith f a (c ++ d) = List.zipWith f a c := by
  intro a
  induction a with
  | nil => simp
  | cons x rest ih =>
    intro c d h
    cases c with
    | nil => simp at h
    | cons y crest =>
      simp only [List.cons_append, List.zipWith_cons_cons]
      rw [ih crest d (by simpa using h)]

theorem xorBytes_append (a b c d : Bytes) (h : a.length = c.length) :
    xorBytes (a ++ b) (c ++ d) = xorBytes a c ++ xorBytes b d := by
  simp only [xorBytes]
  rw [List.zipWith_append _ _ _ _ _ h]

theorem cfbDecrypt_eq_xor_ks (E : Bytes → Bytes) (hE : BlockCipher E) :
    ∀ n (c ivb : Bytes), c.length ≤ n →
      cfbDecrypt E ivb c = xorBytes c (cfbKS E ivb c) := by
  intro n
  induction n with
  | zero =>
    intro c ivb hc
    have : c = [] := List.eq_nil_of_length_eq_zero (by omega)
    subst this
    rw [cfbDecrypt_nil, cfbKS_nil]
    rfl
  | succ n ih =>
    intro c ivb hc
    by_cases hcn : c = []
    · subst hcn
      rw [cfbDecrypt_nil, cfbKS_nil]
      rfl
    · rw [cfbDecrypt_ne_nil E ivb c hcn, cfbKS_ne_nil E ivb c hcn]
      have hcpos : 0 < c.length := List.length_pos.mpr hcn
      rw [ih (c.drop 16) (c.take 16) (by simp [List.length_drop]; omega)]
      by_cases hlen : c.length ≤ 16
      · have hdrop : c.drop 16 = [] := List.drop_eq_nil_of_le (by omega)
        have htake : c.take 16 = c := List.take_of_length_le (by omega)
        rw [hdrop, htake, cfbKS_nil]
        simp only [xorBytes, List.zipWith_nil_left, List.zipWith_nil_right, List.append_nil]
      · set t := c.take 16 with ht
        set d := c.drop 16 with hd
        have hc2 : c = t ++ d := by
          rw [ht, hd]
          exact (List.take_append_drop 16 c).symm
        have htlen : t.length = 16 := by
          rw [ht, List.length_take]
          omega
        conv_rhs => rw [hc2]
        rw [xorBytes_append _ _ _ _ (by rw [htlen, hE ivb])]

theorem cfbKS_length_ge (E : Bytes → Bytes) (hE : BlockCipher E) :
    ∀ n (c ivb : Bytes), c.length ≤ n → c.length ≤ (cfbKS E ivb c).length := by
  intro n
  induction n with
  | zero =>
    intro c ivb hc
    omega
  | succ n ih =>
    intro c ivb hc
    by_cases hcn : c = []
    · subst hcn
      simp
    · rw [cfbKS_ne_nil E ivb c hcn]
      have hcpos : 0 < c.length := List.length_pos.mpr hcn
      have := ih (c.drop 16) (c.take 16) (by simp [List.length_drop]; omega)
      rw [List.length_append, hE ivb]
      simp only [List.length_drop] at this
      omega

theorem xorBytes_eq_iff_ks_eq :
    ∀ (c k1 k2 : Bytes), c.length ≤ k1.length → c.length ≤ k2.length →
      (xorBytes c k1 = xorBytes c k2 ↔ k1.take c.length = k2.take c.length) := by
  intro c
  induction c with
  | nil =>
    intro k1 k2 h1 h2
    simp [xorBytes]
  | cons x rest ih =>
    intro k1 k2 h1 h2
    cases k1 with
    | nil => simp at h1
    | cons y1 r1 =>
      cases k2 with
      | nil => simp at h2
      | cons y2 r2 =>
        simp only [xorBytes, List.zipWith_cons_cons, List.length_cons, List.take_succ_cons,
          List.cons.injEq]
        constructor
        · rintro ⟨hxy, hrest⟩
          have hy : y1 = y2 := Nat.xor_right_injective hxy
          refine ⟨hy, ?_⟩
          exact (ih r1 r2 (by simpa using h1) (by simpa using h2)).mp hrest
        · rintro ⟨hy, htake⟩
          subst hy
          exact ⟨rfl, (ih r1 r2 (by simpa using h1) (by simpa using h2)).mpr htake⟩

/-! ### Metadata store -/

theorem entryById_append_last (s : FakeStore) (e : Entry) (owner : Int) :
    entryById (s ++ [e]) ((s.length : Int) + 1) owner =
      if owner ≠ e.ownerId then Except.error Err.noSuchId else Except.ok e := by
  rw [entryById]
  have hcond : 0 ≤ ((s.length : Int) + 1) - 1 ∧
      (((s.length : Int) + 1) - 1).toNat < (s ++ [e]).length := by
    have hlen : (s ++ [e]).length = s.length + 1 := by simp
    constructor
    · omega
    · omega
  rw [dif_pos hcond]
  have hidx : (((s.length : Int) + 1) - 1).toNat = s.length := by omega
  have hget : (s ++ [e]).get ⟨(((s.length : Int) + 1) - 1).toNat, hcond.2⟩ = e := by
    simp only [List.get_eq_getElem]
    rw [List.getElem_append_right (by omega)]
    simp [hidx]
  rw [hget]

theorem entryById_out_of_range (s : FakeStore) (id owner : Int)
    (h : id < 1 ∨ (s.length : Int) < id) :
    entryById s id owner = Except.error Err.noSuchId := by
  rw [entryById]
  rw [dif_neg ?_]
  rintro ⟨h1, h2⟩
  omega

theorem entryById_owner_mismatch (s : FakeStore) (i : Nat) (hi : i < s.length)
    (owner : Int) (hmm : owner ≠ (s.get ⟨i, hi⟩).ownerId) :
    entryById s ((i : Int) + 1) owner = Except.error Err.noSuchId := by
  rw [entryById]
  have hcond : 0 ≤ ((i : Int) + 1) - 1 ∧ (((i : Int) + 1) - 1).toNat < s.length := by
    constructor
    · omega
    · simp only [show (((i : Int) + 1) - 1).toNat = i by omega]
      exact hi
  rw [dif_pos hcond]
  have hget : s.get ⟨(((i : Int) + 1) - 1).toNat, hcond.2⟩ = s.get ⟨i, hi⟩ := by
    congr 1
    simp only [Fin.mk.injEq]
    omega
  rw [hget, if_pos hmm]

theorem entryById_ok_bounds (s : FakeStore) (id owner : Int) (e : Entry)
    (h : entryById s id owner = Except.ok e) :
    1 ≤ id ∧ id ≤ (s.length : Int) ∧ owner = e.ownerId ∧
      ∃ hi : (id - 1).toNat < s.length, s.get ⟨(id - 1).toNat, hi⟩ = e := by
  rw [entryById] at h
  by_cases hcond : 0 ≤ id - 1 ∧ (id - 1).toNat < s.length
  · rw [dif_pos hcond] at h
    by_cases hmm : owner ≠ (s.get ⟨(id - 1).toNat, hcond.2⟩).ownerId
    · rw [if_pos hmm] at h
      exact absurd h (by simp)
    · rw [if_neg hmm] at h
      push_neg at hmm
      obtain ⟨h1, h2⟩ := hcond
      refine ⟨by omega, by omega, ?_, h2, ?_⟩
      · injection h with h
        rw [← h]
        exact hmm
      · injection h

  · rw [dif_neg hcond] at h
    exact absurd h (by simp)

/-! ### Content store equations -/

theorem aesWrite_exists (E : Bytes → Bytes → Bytes) (sha : Bytes → Bytes)
    (fs : InMemFS) (o : Owner) (c v : Bytes)
    (h : fsGet fs (blobPath sha o c) = some v) :
    aesWrite E sha fs o c = (Except.ok (hexEncode (sha c)), fs) := by
  rw [aesWrite]
  simp only [blobPath] at h
  rw [if_pos (by rw [h]; rfl)]

theorem aesWrite_fresh_plain (E : Bytes → Bytes → Bytes) (sha : Bytes → Bytes)
    (fs : InMemFS) (o : Owner) (c : Bytes) (hk : o.key = none)
    (h : fsGet fs (blobPath sha o c) = none) :
    aesWrite E sha fs o c =
      (Except.ok (hexEncode (sha c)), fsPut fs (blobPath sha o c) c) := by
  rw [aesWrite]
  simp only [blobPath] at h ⊢
  rw [if_neg (by rw [h]; simp), hk]

theorem aesWrite_fresh_enc (E : Bytes → Bytes → Bytes) (sha : Bytes → Bytes)
    (fs : InMemFS) (o : Owner) (c k : Bytes) (hk : o.key = some k)
    (hklen : k.length = 16 ∨ k.length = 24 ∨ k.length = 32)
    (h : fsGet fs (blobPath sha o c) = none) :
    aesWrite E sha fs o c =
      (Except.ok (hexEncode (sha c)),
       fsPut fs (blobPath sha o c)
         (cfbEncrypt (E k) (ivBytes sha (sha c) o.id) c)) := by
  rw [aesWrite]
  simp only [blobPath] at h ⊢
  rw [if_neg (by rw [h]; simp), hk]
  simp only [if_pos hklen]

theorem aesWrite_bad_key (E : Bytes → Bytes → Bytes) (sha : Bytes → Bytes)
    (fs : InMemFS) (o : Owner) (c k : Bytes) (hk : o.key = some k)
    (hklen : ¬(k.length = 16 ∨ k.length = 24 ∨ k.length = 32))
    (h : fsGet fs (blobPath sha o c) = none) :
    aesWrite E sha fs o c = (Except.error Err.keySize, fs) := by
  rw [aesWrite]
  simp only [blobPath] at h ⊢
  rw [if_neg (by rw [h]; simp), hk]
  simp only [if_neg hklen]

theorem aesOpen_plain (E : Bytes → Bytes → Bytes) (sha : Bytes → Bytes)
    (fs : InMemFS) (o : Owner) (chk : Str) (v : Bytes) (hk : o.key = none)
    (h : fsGet fs (idToPath chk o.id) = some v) :
    aesOpen E sha fs o chk = Except.ok v := by
  rw [aesOpen, hk]
  simp only [h]

theorem aesOpen_enc (E : Bytes → Bytes → Bytes) (sha : Bytes → Bytes)
    (fs : InMemFS) (o : Owner) (dig : Bytes) (k v : Bytes) (hk : o.key = some k)
    (hklen : k.length = 16 ∨ k.length = 24 ∨ k.length = 32)
    (hdig : ∀ b ∈ dig, b < 256)
    (h : fsGet fs (idToPath (hexEncode dig) o.id) = some v) :
    aesOpen E sha fs o (hexEncode dig) =
      Except.ok (cfbDecrypt (E k) (ivBytes sha dig o.id) v) := by
  rw [aesOpen, hk]
  simp only [hexDecode_hexEncode dig hdig, h, if_pos hklen]

/-! ### The round trip through the facade -/

theorem ifsWrite_ok (E : Bytes → Bytes → Bytes) (sha : Bytes → Bytes)
    (sys : Sys) (o : Owner) (hov : ValidOwner o) (ts : Int) (name : Str)
    (c : Bytes) :
    ∃ fs', ifsWrite E sha sys o ts name c =
      (Except.ok ((sys.store.length : Int) + 1),
       { fs := fs',
         store := sys.store ++ [writtenEntry sha o sys.store.length ts name c] }) := by
  rw [ifsWrite]
  have hchk :
      ∀ fs', aesWrite E sha sys.fs o c = (Except.ok (hexEncode (sha c)), fs') →
        (match aesWrite E sha sys.fs o c with
          | (Except.error e, fs') => (Except.error e, { sys with fs := fs' })
          | (Except.ok chk, fs') =>
            let entry : Entry :=
              { id := 0, name := name, size := (c.length : Int), ts := ts,
                ownerId := o.id, checksum := chk }
            let added := addEntry sys.store entry
            ((Except.ok added.2 : Except Err Int), { fs := fs', store := added.1 })) =
          (Except.ok ((sys.store.length : Int) + 1),
           { fs := fs',
             store := sys.store ++ [writtenEntry sha o sys.store.length ts name c] }) := by
    intro fs' hw
    rw [hw]
    simp only [addEntry, writtenEntry]
  by_cases hex : ∃ v, fsGet sys.fs (blobPath sha o c) = some v
  · obtain ⟨v, hv⟩ := hex
    exact ⟨sys.fs, hchk sys.fs (aesWrite_exists E sha sys.fs o c v hv)⟩
  · have hnone : fsGet sys.fs (blobPath sha o c) = none := by
      cases h : fsGet sys.fs (blobPath sha o c) with
      | none => rfl
      | some v => exact absurd ⟨v, h⟩ hex
    rcases hov with hk | ⟨k, hk, hklen⟩
    · exact ⟨_, hchk _ (aesWrite_fresh_plain E sha sys.fs o c hk hnone)⟩
    · exact ⟨_, hchk _ (aesWrite_fresh_enc E sha sys.fs o c k hk (by omega) hnone)⟩

/-! ### Facade open: success and failure equations -/

theorem ifsOpen_eq_ok (E : Bytes → Bytes → Bytes) (sha : Bytes → Bytes)
    (fs : InMemFS) (store : FakeStore) (o : Owner) (name : Str)
    (id : Int) (base : Str) (e : Entry) (b : Bytes)
    (hp : parsePath name = some (id, base))
    (he : entryById store id o.id = Except.ok e)
    (hb : base = e.name)
    (ha : aesOpen E sha fs o e.checksum = Except.ok b) :
    ifsOpen E sha fs store o name = Except.ok (e, b) := by
  rw [ifsOpen]
  simp only [hp, he, ha]
  rw [if_neg (by simp [hb])]

theorem ifsOpen_parse_fail (E : Bytes → Bytes → Bytes) (sha : Bytes → Bytes)
    (fs : InMemFS) (store : FakeStore) (o : Owner) (name : Str)
    (hp : parsePath name = none) :
    ifsOpen E sha fs store o name = Except.error (openErr name) := by
  rw [ifsOpen]
  simp only [hp]

theorem ifsOpen_lookup_fail (E : Bytes → Bytes → Bytes) (sha : Bytes → Bytes)
    (fs : InMemFS) (store : FakeStore) (o : Owner) (name : Str)
    (id : Int) (base : Str) (x : Err)
    (hp : parsePath name = some (id, base))
    (he : entryById store id o.id = Except.error x) :
    ifsOpen E sha fs store o name = Except.error (openErr name) := by
  rw [ifsOpen]
  simp only [hp, he]

theorem ifsOpen_name_mismatch (E : Bytes → Bytes → Bytes) (sha : Bytes → Bytes)
    (fs : InMemFS) (store : FakeStore) (o : Owner) (name : Str)
    (id : Int) (base : Str) (e : Entry)
    (hp : parsePath name = some (id, base))
    (he : entryById store id o.id = Except.ok e)
    (hb : base ≠ e.name) :
    ifsOpen E sha fs store o name = Except.error (openErr name) := by
  rw [ifsOpen]
  simp only [hp, he]
  rw [if_pos hb]

theorem ifsOpen_blob_fail (E : Bytes → Bytes → Bytes) (sha : Bytes → Bytes)
    (fs : InMemFS) (store : FakeStore) (o : Owner) (name : Str)
    (id : Int) (base : Str) (e : Entry) (x : Err)
    (hp : parsePath name = some (id, base))
    (he : entryById store id o.id = Except.ok e)
    (hb : base = e.name)
    (ha : aesOpen E sha fs o e.checksum = Except.error x) :
    ifsOpen E sha fs store o name = Except.error (openErr name) := by
  rw [ifsOpen]
  simp only [hp, he, ha]
  rw [if_neg (by simp [hb])]

theorem ifsOpen_error_unique (E : Bytes → Bytes → Bytes) (sha : Bytes → Bytes)
    (fs : InMemFS) (store : FakeStore) (o : Owner) (name : Str) (r : PathError)
    (h : ifsOpen E sha fs store o name = Except.error r) : r = openErr name := by
  rw [ifsOpen] at h
  cases hp : parsePath name with
  | none =>
    rw [hp] at h
    simp only at h
    injection h with h
    exact h.symm
  | some pr =>
    obtain ⟨id, base⟩ := pr
    rw [hp] at h
    simp only at h
    cases he : entryById store id o.id with
    | error x =>
      rw [he] at h
      simp only at h
      injection h with h
      exact h.symm
    | ok e =>
      rw [he] at h
      simp only at h
      by_cases hb : base ≠ e.name
      · rw [if_pos hb] at h
        injection h with h
        exact h.symm
      · rw [if_neg hb] at h
        cases ha : aesOpen E sha fs o e.checksum with
        | error x =>
          rw [ha] at h
          simp only at h
          injection h with h
          exact h.symm
        | ok b =>
          rw [ha] at h
          simp only at h
          exact absurd h (by simp)

theorem ifsOpen_ok_inv (E : Bytes → Bytes → Bytes) (sha : Bytes → Bytes)
    (fs : InMemFS) (store : FakeStore) (o : Owner) (name : Str)
    (e : Entry) (b : Bytes)
    (h : ifsOpen E sha fs store o name = Except.ok (e, b)) :
    ∃ id, parsePath name = some (id, e.name) ∧
      entryById store id o.id = Except.ok e ∧
      aesOpen E sha fs o e.checksum = Except.ok b := by
  rw [ifsOpen] at h
  cases hp : parsePath name with
  | none =>
    rw [hp] at h
    exact absurd h (by simp)
  | some pr =>
    obtain ⟨id, base⟩ := pr
    rw [hp] at h
    simp only at h
    cases he : entryById store id o.id with
    | error x =>
      rw [he] at h
      exact absurd h (by simp)
    | ok e' =>
      rw [he] at h
      simp only at h
      by_cases hb : base ≠ e'.name
      · rw [if_pos hb] at h
        exact absurd h (by simp)
      · rw [if_neg hb] at h
        push_neg at hb
        cases ha : aesOpen E sha fs o e'.checksum with
        | error x =>
          rw [ha] at h
          exact absurd h (by simp)
        | ok b' =>
          rw [ha] at h
          simp only at h
          injection h with h
          injection h with h1 h2
          subst h1
          subst h2
          subst hb
          exact ⟨id, rfl, he, ha⟩

/-! ### Sorting the list results -/

theorem insertEntry_perm (e : Entry) (l : List Entry) :
    List.Perm (insertEntry e l) (e :: l) := by
  induction l with
  | nil => rfl
  | cons x xs ih =>
    rw [insertEntry]
    by_cases hlt : e.id < x.id
    · rw [if_pos hlt]
    · rw [if_neg hlt]
      exact (List.Perm.cons x ih).trans (List.Perm.swap e x xs)

theorem sortEntries_perm (l : List Entry) : List.Perm (sortEntries l) l := by
  induction l with
  | nil => rfl
  | cons x xs ih =>
    rw [sortEntries, List.foldr_cons]
    exact (insertEntry_perm x _).trans (List.Perm.cons x ih)

theorem insertEntry_sorted (e : Entry) (l : List Entry)
    (h : List.Pairwise (fun a b => a.id ≤ b.id) l) :
    List.Pairwise (fun a b => a.id ≤ b.id) (insertEntry e l) := by
  induction l with
  | nil => simp [insertEntry]
  | cons x xs ih =>
    rw [insertEntry]
    by_cases hlt : e.id < x.id
    · rw [if_pos hlt]
      apply List.Pairwise.cons ?_ h
      intro b hb
      rcases List.mem_cons.mp hb with hb | hb
      · subst hb
        omega
      · have := (List.pairwise_cons.mp h).1 b hb
        omega
    · rw [if_neg hlt]
      obtain ⟨hx, hxs⟩ := List.pairwise_cons.mp h
      apply List.pairwise_cons.mpr
      refine ⟨?_, ih hxs⟩
      intro b hb
      have hmem := (insertEntry_perm e xs).mem_iff.mp hb
      rcases List.mem_cons.mp hmem with hb2 | hb2
      · subst hb2
        omega
      · exact hx b hb2

theorem sortEntries_sorted (l : List Entry) :
    List.Pairwise (fun a b => a.id ≤ b.id) (sortEntries l) := by
  induction l with
  | nil => simp [sortEntries]
  | cons x xs ih =>
    rw [sortEntries, List.foldr_cons]
    exact insertEntry_sorted x _ ih

/-- Two permuted lists of entries that are both sorted by id and have
duplicate-free ids are equal. -/
theorem sorted_nodup_perm_eq (l1 l2 : List Entry)
    (hperm : List.Perm l1 l2)
    (hs1 : List.Pairwise (fun a b => a.id ≤ b.id) l1)
    (hs2 : List.Pairwise (fun a b => a.id ≤ b.id) l2)
    (hnd : (l1.map Entry.id).Nodup) : l1 = l2 := by
  have hnd2 : (l2.map Entry.id).Nodup := (hperm.map Entry.id).nodup_iff.mp hnd
  have hlt1 : List.Pairwise (fun a b => a.id < b.id) l1 := by
    have hpn : List.Pairwise (fun a b => a.id ≠ b.id) l1 := List.pairwise_map.mp hnd
    exact (hs1.and hpn).imp (fun h => by omega)
  have hlt2 : List.Pairwise (fun a b => a.id < b.id) l2 := by
    have hpn : List.Pairwise (fun a b => a.id ≠ b.id) l2 := List.pairwise_map.mp hnd2
    exact (hs2.and hpn).imp (fun h => by omega)
  haveI : IsAntisymm Entry (fun a b => a.id < b.id) :=
    ⟨fun a b h1 h2 => absurd h1 (by omega)⟩
  exact List.eq_of_perm_of_sorted hperm hlt1 hlt2

/-! ### List semantics -/

theorem listLoop_filter (lookup : Int → Except Err Entry) (ids : List (Int × Bool)) :
    listLoop lookup ids = listLoop lookup (ids.filter (fun p => p.2)) := by
  induction ids with
  | nil => rfl
  | cons p rest ih =>
    obtain ⟨id, w⟩ := p
    cases w with
    | false =>
      rw [show listLoop lookup ((id, false) :: rest) = listLoop lookup rest from rfl, ih]
      simp [List.filter_cons]
    | true =>
      have hf : ((id, true) :: rest).filter (fun p => p.2) =
          (id, true) :: rest.filter (fun p => p.2) := by
        simp [List.filter_cons]
      rw [hf, listLoop, listLoop, ih]

theorem listLoop_congr (lookup1 lookup2 : Int → Except Err Entry)
    (ids : List (Int × Bool))
    (h : ∀ id, (id, true) ∈ ids → lookup1 id = lookup2 id) :
    listLoop lookup1 ids = listLoop lookup2 ids := by
  induction ids with
  | nil => rfl
  | cons p rest ih =>
    obtain ⟨id, w⟩ := p
    have hrest : ∀ i, (i, true) ∈ rest → lookup1 i = lookup2 i :=
      fun i hi => h i (List.mem_cons_of_mem _ hi)
    cases w with
    | false =>
      rw [show listLoop lookup1 ((id, false) :: rest) = listLoop lookup1 rest from rfl,
        show listLoop lookup2 ((id, false) :: rest) = listLoop lookup2 rest from rfl]
      exact ih hrest
    | true =>
      rw [listLoop, listLoop, h id (List.mem_cons_self _ _), ih hrest]

theorem listLoop_ok (lookup : Int → Except Err Entry) (ids : List (Int × Bool))
    (h : ∀ id, (id, true) ∈ ids →
      (∃ e, lookup id = Except.ok e) ∨ lookup id = Except.error Err.noSuchId) :
    listLoop lookup ids =
      Except.ok (ids.filterMap
        (fun p => if p.2 then (lookup p.1).toOption else none)) := by
  induction ids with
  | nil => rfl
  | cons p rest ih =>
    obtain ⟨id, w⟩ := p
    have hrest : ∀ i, (i, true) ∈ rest →
        (∃ e, lookup i = Except.ok e) ∨ lookup i = Except.error Err.noSuchId :=
      fun i hi => h i (List.mem_cons_of_mem _ hi)
    cases w with
    | false =>
      rw [show listLoop lookup ((id, false) :: rest) = listLoop lookup rest from rfl, ih hrest]
      simp [List.filterMap_cons]
    | true =>
      rw [listLoop]
      rcases h id (List.mem_cons_self _ _) with ⟨e, he⟩ | he
      · rw [he, ih hrest]
        simp [List.filterMap_cons, he, Except.toOption, Except.map]
      · rw [he, ih hrest]
        simp [List.filterMap_cons, he, Except.toOption]

theorem listLoop_abort (lookup : Int → Except Err Entry) (x : Err)
    (hx : x ≠ Err.noSuchId) : ∀ (ids : List (Int × Bool)) (id : Int),
    (id, true) ∈ ids → lookup id = Except.error x →
    (∀ j y, (j, true) ∈ ids → lookup j = Except.error y → y = x) →
    listLoop lookup ids = Except.error x := by
  intro ids
  induction ids with
  | nil =>
    intro id hmem
    simp at hmem
  | cons p rest ih =>
    intro id hmem hid hothers
    obtain ⟨pid, w⟩ := p
    cases w with
    | false =>
      rw [show listLoop lookup ((pid, false) :: rest) = listLoop lookup rest from rfl]
      have hmem2 : (id, true) ∈ rest := by
        rcases List.mem_cons.mp hmem with hc | hc
        · exact absurd hc (by simp)
        · exact hc
      exact ih id hmem2 hid (fun j y hj => hothers j y (List.mem_cons_of_mem _ hj))
    | true =>
      rw [listLoop]
      cases hl : lookup pid with
      | error y =>
        have hy : y = x := hothers pid y (List.mem_cons_self _ _) hl
        subst hy
        cases y with
        | noSuchId => exact absurd rfl hx
        | notExist => rfl
        | permission => rfl
        | closed => rfl
        | keySize => rfl
        | invalidHex => rfl
        | backend n => rfl
      | ok e =>
        have hmem2 : (id, true) ∈ rest := by
          rcases List.mem_cons.mp hmem with hc | hc
          · have hpid : pid = id := by
              injection hc with h1 h2
              exact h1.symm
            subst hpid
            rw [hl] at hid
            exact absurd hid (by simp)
          · exact hc
        rw [ih id hmem2 hid (fun j y hj => hothers j y (List.mem_cons_of_mem _ hj))]
        rfl

theorem listG_sorted (lookup : Int → Except Err Entry) (ids : List (Int × Bool))
    (l : List Entry) (h : listG lookup ids = Except.ok l) :
    List.Pairwise (fun a b => a.id ≤ b.id) l := by
  rw [listG] at h
  cases hl : listLoop lookup ids with
  | error x =>
    rw [hl] at h
    exact absurd h (by simp [Except.map])
  | ok raw =>
    rw [hl] at h
    simp only [Except.map] at h
    injection h with h
    rw [← h]
    exact sortEntries_sorted raw

theorem filterMap_ids_nodup (lookup : Int → Except Err Entry)
    (hid : ∀ id e, lookup id = Except.ok e → e.id = id) :
    ∀ ids : List (Int × Bool), (ids.map Prod.fst).Nodup →
      (((ids.filterMap (fun p => if p.2 then (lookup p.1).toOption else none)).map
        Entry.id).Nodup) := by
  intro ids
  induction ids with
  | nil => simp
  | cons p rest ih =>
    intro hnd
    obtain ⟨id, w⟩ := p
    simp only [List.map_cons, List.nodup_cons] at hnd
    obtain ⟨hnotin, hndrest⟩ := hnd
    rw [List.filterMap_cons]
    cases hf : (if (id, w).2 then (lookup (id, w).1).toOption else none) with
    | none => exact ih hndrest
    | some e =>
      simp only [List.map_cons, List.nodup_cons]
      refine ⟨?_, ih hndrest⟩
      intro hmem
      obtain ⟨e', he'mem, he'id⟩ := List.mem_map.mp hmem
      obtain ⟨⟨id', w'⟩, hpmem, hfe⟩ := List.mem_filterMap.mp he'mem
      have heid : e.id = id := by
        by_cases hw : w = true
        · rw [hw] at hf
          simp only [if_pos rfl] at hf
          cases hl : lookup id with
          | error x =>
            rw [hl] at hf
            simp [Except.toOption] at hf
          | ok e2 =>
            rw [hl] at hf
            simp only [Except.toOption] at hf
            injection hf with hf
            rw [← hf]
            exact hid id e2 hl
        · simp only [Bool.not_eq_true] at hw
          rw [hw] at hf
          simp at hf
      have he'id2 : e'.id = id' := by
        by_cases hw : w' = true
        · rw [hw] at hfe
          simp only [if_pos rfl] at hfe
          cases hl : lookup id' with
          | error x =>
            rw [hl] at hfe
            simp [Except.toOption] at hfe
          | ok e2 =>
            rw [hl] at hfe
            simp only [Except.toOption] at hfe
            injection hfe with hfe
            rw [← hfe]
            exact hid id' e2 hl
        · simp only [Bool.not_eq_true] at hw
          rw [hw] at hfe
          simp at hfe
      apply hnotin
      have : id' = id := by rw [← he'id2, he'id, heid]
      rw [← this]
      exact List.mem_map.mpr ⟨(id', w'), hpmem, rfl⟩

theorem listG_perm (lookup : Int → Except Err Entry) (ids1 ids2 : List (Int × Bool))
    (hperm : List.Perm ids1 ids2)
    (hok : ∀ id, (id, true) ∈ ids1 →
      (∃ e, lookup id = Except.ok e) ∨ lookup id = Except.error Err.noSuchId)
    (hid : ∀ id e, lookup id = Except.ok e → e.id = id)
    (hnd : (ids1.map Prod.fst).Nodup) :
    listG lookup ids1 = listG lookup ids2 := by
  have hok2 : ∀ id, (id, true) ∈ ids2 →
      (∃ e, lookup id = Except.ok e) ∨ lookup id = Except.error Err.noSuchId :=
    fun id hm => hok id (hperm.mem_iff.mpr hm)
  rw [listG, listG, listLoop_ok lookup ids1 hok, listLoop_ok lookup ids2 hok2]
  simp only [Except.map]
  congr 1
  set f := fun p : Int × Bool => if p.2 then (lookup p.1).toOption else none with hf
  have hlperm : List.Perm (ids1.filterMap f) (ids2.filterMap f) := hperm.filterMap f
  apply sorted_nodup_perm_eq
  · exact ((sortEntries_perm _).trans hlperm).trans (sortEntries_perm _).symm
  · exact sortEntries_sorted _
  · exact sortEntries_sorted _
  · have h1 : ((ids1.filterMap f).map Entry.id).Nodup :=
      filterMap_ids_nodup lookup hid ids1 hnd
    exact (((sortEntries_perm (ids1.filterMap f)).map Entry.id).nodup_iff).mpr h1

theorem wfStore_nil : WFStore [] := by
  intro i h
  simp at h

theorem wfStore_addEntry (s : FakeStore) (e : Entry) (hwf : WFStore s) :
    WFStore (addEntry s e).1 := by
  intro i h
  simp only [addEntry] at h ⊢
  simp only [List.get_eq_getElem]
  have hlen : (s ++ [{ e with id := (s.length : Int) + 1 }]).length = s.length + 1 := by
    simp
  by_cases hi : i < s.length
  · rw [List.getElem_append_left hi]
    exact hwf i hi
  · have hieq : i = s.length := by
      simp only [hlen] at h
      omega
    subst hieq
    rw [List.getElem_append_right (by omega)]
    simp

/-! ### parsePath inversion and failure shapes -/

theorem parsePath_eq_none_of_invalid (name : Str) (h : validPath name = false) :
    parsePath name = none := by
  rw [parsePath, if_neg (by simp [h])]

theorem parsePath_eq_none_not_two (name : Str)
    (h : (splitSlash name).length ≠ 2) : parsePath name = none := by
  rw [parsePath]
  split
  · rcases hsp : splitSlash name with _ | ⟨a, _ | ⟨b, _ | ⟨c, t⟩⟩⟩
    · rfl
    · rfl
    · exact absurd (by rw [hsp]; rfl) h
    · rfl
  · rfl

theorem parsePath_eq_none_bad_int (name : Str) (a b : Str)
    (hsp : splitSlash name = [a, b]) (h : parseInt64 a = none) :
    parsePath name = none := by
  rw [parsePath]
  split
  · rw [hsp]
    show Option.map (fun i => (i, b)) (parseInt64 a) = none
    rw [h]
    rfl
  · rfl

theorem splitSlash_two_ne_dot (name : Str) (a b : Str)
    (hsp : splitSlash name = [a, b]) : name ≠ ['.'] := by
  intro hc
  subst hc
  have : splitSlash ['.'] = [['.']] := by
    rw [splitSlash]
    simp [splitSlash]
  rw [this] at hsp
  injection hsp with h1 h2
  exact absurd h2 (by simp)

theorem parsePath_some_inv (name : Str) (id : Int) (base : Str)
    (h : parsePath name = some (id, base)) :
    validPath name = true ∧ validElem base = true ∧ ('/' ∉ base) ∧
      ∃ a, splitSlash name = [a, base] ∧ parseInt64 a = some id := by
  rw [parsePath] at h
  by_cases hv : validPath name = true
  · rw [if_pos (by simp [hv])] at h
    rcases hsp : splitSlash name with _ | ⟨a, _ | ⟨b, _ | ⟨c, t⟩⟩⟩ <;> rw [hsp] at h
    · exact absurd h (by simp)
    · exact absurd h (by simp)
    · replace h : Option.map (fun i => (i, b)) (parseInt64 a) = some (id, base) := h
      cases hp : parseInt64 a with
      | none =>
        rw [hp] at h
        exact absurd h (by simp)
      | some i =>
        rw [hp] at h
        simp only [Option.map] at h
        have hpair : i = id ∧ b = base := by
          injection h with h
          injection h with ha hb
          exact ⟨ha, hb⟩
        obtain ⟨hiid, hbbase⟩ := hpair
        have hnd : name ≠ ['.'] := splitSlash_two_ne_dot name a b hsp
        have hall : (splitSlash name).all validElem = true := by
          rw [validPath] at hv
          rcases Bool.or_eq_true_iff.mp hv with hc | hc
          · exact absurd (by simpa using hc) hnd
          · exact hc
        have hb2 : validElem b = true := by
          rw [hsp] at hall
          simp only [List.all_cons, List.all_nil, Bool.and_true, Bool.and_eq_true] at hall
          exact hall.2
        refine ⟨hv, ?_, ?_, a, ?_, ?_⟩
        · rw [← hbbase]
          exact hb2
        · rw [← hbbase]
          exact mem_splitSlash_no_slash name b (by rw [hsp]; simp)
        · rw [hbbase]
        · rw [hp, hiid]
    · exact absurd h (by simp)
  · rw [if_neg (by simpa using hv)] at h
    exact absurd h (by simp)

theorem validPath_absolute (t : Str) : validPath ('/' :: t) = false := by
  have hsp : splitSlash ('/' :: t) = [] :: splitSlash t := by
    rw [splitSlash]
    simp
  rw [validPath, hsp]
  simp [validElem]

theorem two_le_splitSlash_length_of_slash (s : Str) (h : '/' ∈ s) :
    2 ≤ (splitSlash s).length := by
  induction s with
  | nil => simp at h
  | cons c rest ih =>
    rw [splitSlash]
    by_cases hc : c = '/'
    · rw [if_pos hc]
      have := splitSlash_ne_nil rest
      have : 1 ≤ (splitSlash rest).length := by
        cases hr : splitSlash rest with
        | nil => exact absurd hr (splitSlash_ne_nil rest)
        | cons x xs => simp
      simp only [List.length_cons]
      omega
    · rw [if_neg hc]
      have hrest : '/' ∈ rest := by
        rcases List.mem_cons.mp h with h1 | h1
        · exact absurd h1.symm hc
        · exact h1
      have := ih hrest
      cases hr : splitSlash rest with
      | nil => exact absurd hr (splitSlash_ne_nil rest)
      | cons x xs =>
        rw [hr] at this
        simp only [List.length_cons] at this ⊢
        omega

theorem sha0_good : GoodHash sha0 := by
  intro c
  constructor
  · simp [sha0]
  · intro b hb
    rw [sha0] at hb
    have := List.eq_of_mem_replicate hb
    subst this
    exact Nat.mod_lt _ (by omega)

theorem E0_fam : CipherFam E0 := by
  intro k b
  simp [E0]

theorem ifsWrite_eq_of_aes (E : Bytes → Bytes → Bytes) (sha : Bytes → Bytes)
    (sys : Sys) (o : Owner) (ts : Int) (name : Str) (c : Bytes) (fs' : InMemFS)
    (hw : aesWrite E sha sys.fs o c = (Except.ok (hexEncode (sha c)), fs')) :
    ifsWrite E sha sys o ts name c =
      (Except.ok ((sys.store.length : Int) + 1),
       { fs := fs',
         store := sys.store ++ [writtenEntry sha o sys.store.length ts name c] }) := by
  rw [ifsWrite, hw]
  simp only [addEntry, writtenEntry]

theorem roundtrip_open (E : Bytes → Bytes → Bytes) (sha : Bytes → Bytes)
    (hE : CipherFam E) (hsha : GoodHash sha)
    (o : Owner) (hov : ValidOwner o) (sys : Sys) (ts : Int) (name : Str)
    (c : Bytes) (hg : goodName name)
    (hfresh : fsGet sys.fs (blobPath sha o c) = none)
    (hbound : (sys.store.length : Int) + 1 < 2 ^ 63) :
    ∃ fs',
      aesWrite E sha sys.fs o c = (Except.ok (hexEncode (sha c)), fs') ∧
      ifsOpen E sha fs'
          (sys.store ++ [writtenEntry sha o sys.store.length ts name c]) o
          (entryPath (writtenEntry sha o sys.store.length ts name c)) =
        Except.ok (writtenEntry sha o sys.store.length ts name c, c) := by
  set ent := writtenEntry sha o sys.store.length ts name c with hent
  have hname : ent.name = name := rfl
  have hid : ent.id = (sys.store.length : Int) + 1 := rfl
  have hparse : parsePath (entryPath ent) = some (ent.id, ent.name) := by
    rw [entryPath, hname, hid]
    exact parsePath_canonical _ name hg (by omega) hbound
  have hlook : entryById (sys.store ++ [ent]) ent.id o.id = Except.ok ent := by
    rw [hid, entryById_append_last, if_neg (by simp [hent, writtenEntry])]
  rcases hov with hk | ⟨k, hk, hklen⟩
  · refine ⟨fsPut sys.fs (blobPath sha o c) c,
      aesWrite_fresh_plain E sha sys.fs o c hk hfresh, ?_⟩
    apply ifsOpen_eq_ok E sha _ _ o _ ent.id ent.name ent c hparse hlook rfl
    show aesOpen E sha _ o (hexEncode (sha c)) = Except.ok c
    exact aesOpen_plain E sha _ o (hexEncode (sha c)) c hk
      (fsGet_fsPut_self sys.fs (blobPath sha o c) c)
  · refine ⟨fsPut sys.fs (blobPath sha o c)
        (cfbEncrypt (E k) (ivBytes sha (sha c) o.id) c),
      aesWrite_fresh_enc E sha sys.fs o c k hk (by omega) hfresh, ?_⟩
    apply ifsOpen_eq_ok E sha _ _ o _ ent.id ent.name ent c hparse hlook rfl
    show aesOpen E sha _ o (hexEncode (sha c)) = Except.ok c
    rw [aesOpen_enc E sha _ o (sha c) k
      (cfbEncrypt (E k) (ivBytes sha (sha c) o.id) c) hk (by omega) (hsha c).2
      (fsGet_fsPut_self sys.fs (blobPath sha o c) _)]
    rw [cfb_roundtrip (E k) (hE k) (ivBytes sha (sha c) o.id) c]

/-- Claim C1 (amended).  Round trip through the facade: for every byte content,
every name that is a valid single path segment (nonempty, slash-free, not `.`
or `..`), and every owner configuration (key absent, or a 32-byte key
present), writing the content and then opening the logical path of the entry
that `Write` created returns exactly the content; the entry's size is the
content length, its name is the supplied name, and its owner id is the
facade's owner id. -/
theorem c1_round_trip (E : Bytes → Bytes → Bytes) (sha : Bytes → Bytes)
    (hE : CipherFam E) (hsha : GoodHash sha)
    (o : Owner) (hov : ValidOwner o) (sys : Sys) (ts : Int) (name : Str)
    (c : Bytes) (hg : goodName name)
    (hfresh : fsGet sys.fs (blobPath sha o c) = none)
    (hbound : (sys.store.length : Int) + 1 < 2 ^ 63) :
    ∃ sys',
      writeFS E sha (IFS.base o) sys ts name c =
        (Except.ok ((sys.store.length : Int) + 1), sys')
      ∧ openFS E sha (IFS.base o) sys'
          (entryPath (writtenEntry sha o sys.store.length ts name c)) =
        Except.ok (writtenEntry sha o sys.store.length ts name c, c)
      ∧ (writtenEntry sha o sys.store.length ts name c).size = (c.length : Int)
      ∧ (writtenEntry sha o sys.store.length ts name c).name = name
      ∧ (writtenEntry sha o sys.store.length ts name c).ownerId = o.id := by
  obtain ⟨fs', hw, hopen⟩ :=
    roundtrip_open E sha hE hsha o hov sys ts name c hg hfresh hbound
  refine ⟨⟨fs', sys.store ++ [writtenEntry sha o sys.store.length ts name c]⟩,
    ?_, ?_, rfl, rfl, rfl⟩
  · show ifsWrite E sha sys o ts name c = _
    exact ifsWrite_eq_of_aes E sha sys o ts name c fs' hw
  · exact hopen

/-- Claim C1 witness: a concrete instantiation of the amended round trip. -/
theorem c1_round_trip_witness :
    ∃ sys',
      writeFS E0 sha0 (IFS.base ⟨1, none⟩) ⟨[], []⟩ 0 ('d' :: 'o' :: 'c' :: []) [1, 2, 3] =
        (Except.ok ((([] : FakeStore).length : Int) + 1), sys')
      ∧ openFS E0 sha0 (IFS.base ⟨1, none⟩) sys'
          (entryPath (writtenEntry sha0 ⟨1, none⟩ ([] : FakeStore).length 0
            ('d' :: 'o' :: 'c' :: []) [1, 2, 3])) =
        Except.ok (writtenEntry sha0 ⟨1, none⟩ ([] : FakeStore).length 0
          ('d' :: 'o' :: 'c' :: []) [1, 2, 3], [1, 2, 3])
      ∧ (writtenEntry sha0 ⟨1, none⟩ ([] : FakeStore).length 0
          ('d' :: 'o' :: 'c' :: []) [1, 2, 3]).size = (([1, 2, 3] : Bytes).length : Int)
      ∧ (writtenEntry sha0 ⟨1, none⟩ ([] : FakeStore).length 0
          ('d' :: 'o' :: 'c' :: []) [1, 2, 3]).name = ('d' :: 'o' :: 'c' :: [])
      ∧ (writtenEntry sha0 ⟨1, none⟩ ([] : FakeStore).length 0
          ('d' :: 'o' :: 'c' :: []) [1, 2, 3]).ownerId = (1 : Int) :=
  c1_round_trip E0 sha0 E0_fam sha0_good ⟨1, none⟩ (Or.inl rfl) ⟨[], []⟩ 0
    ('d' :: 'o' :: 'c' :: []) [1, 2, 3] (by decide) rfl (by decide)

/-- Claim C1 counterexample to the claim as stated: with a name containing a
slash (`"a/b"`), `Write` succeeds, but opening the logical path of the entry
it created fails with the NotFound outcome instead of returning the content.
(The stated claim quantifies over every name.) -/
theorem c1_counterexample :
    (writeFS E0 sha0 (IFS.base ⟨1, none⟩) ⟨[], []⟩ 0 ('a' :: '/' :: 'b' :: []) [7]).1 =
      Except.ok 1 ∧
    openFS E0 sha0 (IFS.base ⟨1, none⟩)
        (writeFS E0 sha0 (IFS.base ⟨1, none⟩) ⟨[], []⟩ 0 ('a' :: '/' :: 'b' :: []) [7]).2
        (entryPath (writtenEntry sha0 ⟨1, none⟩ 0 0 ('a' :: '/' :: 'b' :: []) [7])) =
      Except.error (openErr
        (entryPath (writtenEntry sha0 ⟨1, none⟩ 0 0 ('a' :: '/' :: 'b' :: []) [7]))) := by
  constructor
  · decide
  · decide

/-- Claim C2.  Deduplication: writing the same contents twice through the facade
of one owner (starting from an empty blob backend) yields two entries with
distinct ids and the same checksum; after the first write exactly one physical
blob exists, and the second write leaves the backend untouched — the second
content-store write returns the checksum immediately after the existence
check, with no physical write and no error. -/
theorem c2_dedup (E : Bytes → Bytes → Bytes) (sha : Bytes → Bytes)
    (o : Owner) (hov : ValidOwner o) (store0 : FakeStore)
    (ts1 ts2 : Int) (n1 n2 : Str) (c : Bytes) :
    (writeFS E sha (IFS.base o) ⟨[], store0⟩ ts1 n1 c).1 =
        Except.ok ((store0.length : Int) + 1)
    ∧ (writeFS E sha (IFS.base o)
        (writeFS E sha (IFS.base o) ⟨[], store0⟩ ts1 n1 c).2 ts2 n2 c).1 =
        Except.ok ((store0.length : Int) + 2)
    ∧ (writeFS E sha (IFS.base o)
        (writeFS E sha (IFS.base o) ⟨[], store0⟩ ts1 n1 c).2 ts2 n2 c).2.store =
        store0 ++ [writtenEntry sha o store0.length ts1 n1 c,
          writtenEntry sha o (store0.length + 1) ts2 n2 c]
    ∧ (writtenEntry sha o store0.length ts1 n1 c).id ≠
        (writtenEntry sha o (store0.length + 1) ts2 n2 c).id
    ∧ (writtenEntry sha o store0.length ts1 n1 c).checksum =
        (writtenEntry sha o (store0.length + 1) ts2 n2 c).checksum
    ∧ (writeFS E sha (IFS.base o) ⟨[], store0⟩ ts1 n1 c).2.fs.length = 1
    ∧ aesWrite E sha (writeFS E sha (IFS.base o) ⟨[], store0⟩ ts1 n1 c).2.fs o c =
        (Except.ok (hexEncode (sha c)),
         (writeFS E sha (IFS.base o) ⟨[], store0⟩ ts1 n1 c).2.fs) := by
  have hfresh : fsGet ([] : InMemFS) (blobPath sha o c) = none := rfl
  have hblob : ∃ blob, aesWrite E sha ([] : InMemFS) o c =
      (Except.ok (hexEncode (sha c)), fsPut [] (blobPath sha o c) blob) := by
    rcases hov with hk | ⟨k, hk, hklen⟩
    · exact ⟨c, aesWrite_fresh_plain E sha [] o c hk hfresh⟩
    · exact ⟨_, aesWrite_fresh_enc E sha [] o c k hk (by omega) hfresh⟩
  obtain ⟨blob, hw1⟩ := hblob
  have hwr1 : ifsWrite E sha ⟨[], store0⟩ o ts1 n1 c =
      (Except.ok ((store0.length : Int) + 1),
       { fs := fsPut [] (blobPath sha o c) blob,
         store := store0 ++ [writtenEntry sha o store0.length ts1 n1 c] }) :=
    ifsWrite_eq_of_aes E sha ⟨[], store0⟩ o ts1 n1 c _ hw1
  have hfs1 : fsPut ([] : InMemFS) (blobPath sha o c) blob = [(blobPath sha o c, blob)] := rfl
  have hget1 : fsGet (fsPut ([] : InMemFS) (blobPath sha o c) blob) (blobPath sha o c) =
      some blob := fsGet_fsPut_self [] _ _
  have hw2 : aesWrite E sha (fsPut [] (blobPath sha o c) blob) o c =
      (Except.ok (hexEncode (sha c)), fsPut [] (blobPath sha o c) blob) :=
    aesWrite_exists E sha _ o c blob hget1
  have hstep1 : (writeFS E sha (IFS.base o) ⟨[], store0⟩ ts1 n1 c) =
      (Except.ok ((store0.length : Int) + 1),
       { fs := fsPut [] (blobPath sha o c) blob,
         store := store0 ++ [writtenEntry sha o store0.length ts1 n1 c] }) := hwr1
  rw [hstep1]
  have hlen1 : (store0 ++ [writtenEntry sha o store0.length ts1 n1 c]).length =
      store0.length + 1 := by simp
  have hwr2 : ifsWrite E sha
      ({ fs := fsPut [] (blobPath sha o c) blob,
         store := store0 ++ [writtenEntry sha o store0.length ts1 n1 c] } : Sys)
      o ts2 n2 c =
      (Except.ok (((store0 ++ [writtenEntry sha o store0.length ts1 n1 c]).length : Int) + 1),
       { fs := fsPut [] (blobPath sha o c) blob,
         store := (store0 ++ [writtenEntry sha o store0.length ts1 n1 c]) ++
           [writtenEntry sha o (store0 ++ [writtenEntry sha o store0.length ts1 n1 c]).length
             ts2 n2 c] }) :=
    ifsWrite_eq_of_aes E sha _ o ts2 n2 c _ hw2
  refine ⟨rfl, ?_, ?_, ?_, rfl, ?_, hw2⟩
  · show (ifsWrite E sha _ o ts2 n2 c).1 = _
    rw [hwr2]
    simp only [hlen1]
    exact congrArg Except.ok (by push_cast; omega)
  · show (ifsWrite E sha _ o ts2 n2 c).2.store = _
    rw [hwr2]
    simp only [hlen1, List.append_assoc]
    rfl
  · show ((store0.length : Int) + 1) ≠ ((store0.length : Int) + 1 + 1)
    omega
  · rw [hfs1]
    rfl

/-- Claim C2 witness: the dedup property at a concrete content and owner. -/
theorem c2_dedup_witness :
    (writeFS E0 sha0 (IFS.base ⟨1, none⟩) ⟨[], []⟩ 0 ('a' :: []) [9, 9]).1 =
        Except.ok ((([] : FakeStore).length : Int) + 1)
    ∧ (writeFS E0 sha0 (IFS.base ⟨1, none⟩)
        (writeFS E0 sha0 (IFS.base ⟨1, none⟩) ⟨[], []⟩ 0 ('a' :: []) [9, 9]).2 5 ('b' :: []) [9, 9]).1 =
        Except.ok ((([] : FakeStore).length : Int) + 2)
    ∧ (writeFS E0 sha0 (IFS.base ⟨1, none⟩)
        (writeFS E0 sha0 (IFS.base ⟨1, none⟩) ⟨[], []⟩ 0 ('a' :: []) [9, 9]).2 5 ('b' :: []) [9, 9]).2.store =
        [] ++ [writtenEntry sha0 ⟨1, none⟩ ([] : FakeStore).length 0 ('a' :: []) [9, 9],
          writtenEntry sha0 ⟨1, none⟩ (([] : FakeStore).length + 1) 5 ('b' :: []) [9, 9]]
    ∧ (writtenEntry sha0 ⟨1, none⟩ ([] : FakeStore).length 0 ('a' :: []) [9, 9]).id ≠
        (writtenEntry sha0 ⟨1, none⟩ (([] : FakeStore).length + 1) 5 ('b' :: []) [9, 9]).id
    ∧ (writtenEntry sha0 ⟨1, none⟩ ([] : FakeStore).length 0 ('a' :: []) [9, 9]).checksum =
        (writtenEntry sha0 ⟨1, none⟩ (([] : FakeStore).length + 1) 5 ('b' :: []) [9, 9]).checksum
    ∧ (writeFS E0 sha0 (IFS.base ⟨1, none⟩) ⟨[], []⟩ 0 ('a' :: []) [9, 9]).2.fs.length = 1
    ∧ aesWrite E0 sha0 (writeFS E0 sha0 (IFS.base ⟨1, none⟩) ⟨[], []⟩ 0 ('a' :: []) [9, 9]).2.fs
        ⟨1, none⟩ [9, 9] =
        (Except.ok (hexEncode (sha0 [9, 9])),
         (writeFS E0 sha0 (IFS.base ⟨1, none⟩) ⟨[], []⟩ 0 ('a' :: []) [9, 9]).2.fs) :=
  c2_dedup E0 sha0 ⟨1, none⟩ (Or.inl rfl) [] 0 5 ('a' :: []) ('b' :: []) [9, 9]

/-- Claim C3.  Ownership isolation with no existence leak: for an entry of owner
A in a well-formed store and any owner B ≠ A, looking the entry's id up
through B yields the identical `ErrNoSuchId` outcome produced for an id that
exists nowhere; `Open` through B's facade fails with the path's single
NotFound error for any path naming that id; and the `List` loop silently
skips the id. -/
theorem c3_isolation (store : FakeStore) (hwf : WFStore store)
    (e : Entry) (he : e ∈ store) (b : Int) (hne : e.ownerId ≠ b) :
    entryById store e.id b = Except.error Err.noSuchId
    ∧ entryById store ((store.length : Int) + 1) b = Except.error Err.noSuchId
    ∧ entryById store e.id b = entryById store ((store.length : Int) + 1) b
    ∧ (∀ (E : Bytes → Bytes → Bytes) (sha : Bytes → Bytes) (fs : InMemFS)
        (kb : Option Bytes) (name : Str) (base : Str),
        parsePath name = some (e.id, base) →
        ifsOpen E sha fs store ⟨b, kb⟩ name = Except.error (openErr name))
    ∧ (∀ rest, listLoop (fun id => entryById store id b) ((e.id, true) :: rest) =
        listLoop (fun id => entryById store id b) rest) := by
  obtain ⟨i, hget⟩ := List.mem_iff_get.mp he
  have hid : e.id = (i.val : Int) + 1 := by
    rw [← hget]
    exact hwf i.val i.isLt
  have hmm : entryById store e.id b = Except.error Err.noSuchId := by
    rw [hid]
    apply entryById_owner_mismatch store i.val i.isLt b
    rw [show store.get ⟨i.val, i.isLt⟩ = store.get i from by congr]
    rw [hget]
    exact fun hc => hne hc.symm
  have habs : entryById store ((store.length : Int) + 1) b = Except.error Err.noSuchId :=
    entryById_out_of_range store _ b (by omega)
  refine ⟨hmm, habs, by rw [hmm, habs], ?_, ?_⟩
  · intro E sha fs kb name base hp
    exact ifsOpen_lookup_fail E sha fs store ⟨b, kb⟩ name e.id base Err.noSuchId hp hmm
  · intro rest
    rw [listLoop, hmm]

/-- Claim C3 witness: a concrete store with one entry of owner 7, probed by
owner 8. -/
theorem c3_isolation_witness :
    entryById [⟨1, ('a' :: []), 1, 0, 7, ('0' :: '1' :: [])⟩] (1 : Int) 8 =
        Except.error Err.noSuchId
    ∧ entryById [⟨1, ('a' :: []), 1, 0, 7, ('0' :: '1' :: [])⟩]
        ((([⟨1, ('a' :: []), 1, 0, 7, ('0' :: '1' :: [])⟩] : FakeStore).length : Int) + 1) 8 =
        Except.error Err.noSuchId
    ∧ entryById [⟨1, ('a' :: []), 1, 0, 7, ('0' :: '1' :: [])⟩] (1 : Int) 8 =
        entryById [⟨1, ('a' :: []), 1, 0, 7, ('0' :: '1' :: [])⟩]
          ((([⟨1, ('a' :: []), 1, 0, 7, ('0' :: '1' :: [])⟩] : FakeStore).length : Int) + 1) 8
    ∧ (∀ (E : Bytes → Bytes → Bytes) (sha : Bytes → Bytes) (fs : InMemFS)
        (kb : Option Bytes) (name : Str) (base : Str),
        parsePath name = some ((1 : Int), base) →
        ifsOpen E sha fs [⟨1, ('a' :: []), 1, 0, 7, ('0' :: '1' :: [])⟩] ⟨8, kb⟩ name =
          Except.error (openErr name))
    ∧ (∀ rest,
        listLoop (fun id => entryById [⟨1, ('a' :: []), 1, 0, 7, ('0' :: '1' :: [])⟩] id 8)
          (((1 : Int), true) :: rest) =
        listLoop (fun id => entryById [⟨1, ('a' :: []), 1, 0, 7, ('0' :: '1' :: [])⟩] id 8)
          rest) := by
  have hwf : WFStore [⟨1, ('a' :: []), 1, 0, 7, ('0' :: '1' :: [])⟩] := by
    intro i h
    have hi : i = 0 := by
      simp only [List.length_singleton] at h
      omega
    subst hi
    rfl
  have h := c3_isolation [⟨1, ('a' :: []), 1, 0, 7, ('0' :: '1' :: [])⟩]
    hwf ⟨1, ('a' :: []), 1, 0, 7, ('0' :: '1' :: [])⟩ (by decide) 8 (by decide)
  exact h

/-- Claim C4.  Path-parsing and lookup boundary: `Open` fails with the single
NotFound outcome (a path error wrapping not-exist, scoped to the given path)
for an absolute path, a path whose clean-path validation fails, a path with
other than two slash-separated segments, a non-numeric first segment, a
numeric id with no entry for this owner, an entry whose name differs from the
second segment, or a physical blob open failure — and every failure produces
the identical error value, so the causes are indistinguishable. -/
theorem c4_open_failures (E : Bytes → Bytes → Bytes) (sha : Bytes → Bytes)
    (fs : InMemFS) (store : FakeStore) (o : Owner) (name : Str) :
    (∀ t, ifsOpen E sha fs store o ('/' :: t) = Except.error (openErr ('/' :: t)))
    ∧ (validPath name = false →
        ifsOpen E sha fs store o name = Except.error (openErr name))
    ∧ ((splitSlash name).length ≠ 2 →
        ifsOpen E sha fs store o name = Except.error (openErr name))
    ∧ (∀ a bseg, splitSlash name = [a, bseg] → parseInt64 a = none →
        ifsOpen E sha fs store o name = Except.error (openErr name))
    ∧ (∀ id base x, parsePath name = some (id, base) →
        entryById store id o.id = Except.error x →
        ifsOpen E sha fs store o name = Except.error (openErr name))
    ∧ (∀ id base e, parsePath name = some (id, base) →
        entryById store id o.id = Except.ok e → base ≠ e.name →
        ifsOpen E sha fs store o name = Except.error (openErr name))
    ∧ (∀ id base e x, parsePath name = some (id, base) →
        entryById store id o.id = Except.ok e → base = e.name →
        aesOpen E sha fs o e.checksum = Except.error x →
        ifsOpen E sha fs store o name = Except.error (openErr name))
    ∧ (∀ r, ifsOpen E sha fs store o name = Except.error r → r = openErr name) := by
  refine ⟨?_, ?_, ?_, ?_, ?_, ?_, ?_, ?_⟩
  · intro t
    exact ifsOpen_parse_fail E sha fs store o _
      (parsePath_eq_none_of_invalid _ (validPath_absolute t))
  · intro hv
    exact ifsOpen_parse_fail E sha fs store o name (parsePath_eq_none_of_invalid name hv)
  · intro h2
    exact ifsOpen_parse_fail E sha fs store o name (parsePath_eq_none_not_two name h2)
  · intro a bseg hsp hpi
    exact ifsOpen_parse_fail E sha fs store o name
      (parsePath_eq_none_bad_int name a bseg hsp hpi)
  · intro id base x hp he
    exact ifsOpen_lookup_fail E sha fs store o name id base x hp he
  · intro id base e hp he hb
    exact ifsOpen_name_mismatch E sha fs store o name id base e hp he hb
  · intro id base e x hp he hb ha
    exact ifsOpen_blob_fail E sha fs store o name id base e x hp he hb ha
  · intro r hr
    exact ifsOpen_error_unique E sha fs store o name r hr

/-- Claim C4 witness: the failure cases at concrete inputs. -/
theorem c4_open_failures_witness :
    ifsOpen E0 sha0 [] [] ⟨1, none⟩ ('/' :: 'a' :: '/' :: 'b' :: []) =
        Except.error (openErr ('/' :: 'a' :: '/' :: 'b' :: []))
    ∧ ifsOpen E0 sha0 [] [] ⟨1, none⟩ ('a' :: []) =
        Except.error (openErr ('a' :: []))
    ∧ ifsOpen E0 sha0 [] [] ⟨1, none⟩ ('x' :: '/' :: 'b' :: []) =
        Except.error (openErr ('x' :: '/' :: 'b' :: []))
    ∧ ifsOpen E0 sha0 [] [] ⟨1, none⟩ ('1' :: '/' :: 'b' :: []) =
        Except.error (openErr ('1' :: '/' :: 'b' :: [])) := by
  refine ⟨?_, ?_, ?_, ?_⟩
  · exact (c4_open_failures E0 sha0 [] [] ⟨1, none⟩ []).1 ('a' :: '/' :: 'b' :: [])
  · exact (c4_open_failures E0 sha0 [] [] ⟨1, none⟩ ('a' :: [])).2.2.1 (by decide)
  · exact (c4_open_failures E0 sha0 [] [] ⟨1, none⟩ ('x' :: '/' :: 'b' :: [])).2.2.2.1
      ('x' :: []) ('b' :: []) (by decide) (by decide)
  · exact (c4_open_failures E0 sha0 [] [] ⟨1, none⟩ ('1' :: '/' :: 'b' :: [])).2.2.2.2.1
      1 ('b' :: []) Err.noSuchId (by decide) (by decide)

/-- Claim C5 counterexample to the claim as stated: for the empty content,
opening under a different 32-byte key succeeds and the bytes read are exactly
the original plaintext (the empty byte string), contradicting "the bytes read
do not equal the original plaintext". -/
theorem c5_counterexample :
    key32A ≠ key32B ∧ key32A.length = 32 ∧ key32B.length = 32
    ∧ aesOpen E0 sha0 (aesWrite E0 sha0 [] ⟨5, some key32A⟩ []).2 ⟨5, some key32B⟩
        (hexEncode (sha0 [])) = Except.ok ([] : Bytes) := by
  refine ⟨by decide, by decide, by decide, by decide⟩

/-- Claim C5 (amended).  Wrong-key decryption is undetected: opening content
written under 32-byte key `k` through a content store configured with another
32-byte key `k'` always succeeds (no authentication failure is possible), and
the bytes read equal the original plaintext exactly when the two keys generate
the same CFB keystream over the content's length — in particular the bytes
read are garbage whenever the keystreams differ, and for empty content they
trivially coincide. -/
theorem c5_wrong_key (E : Bytes → Bytes → Bytes) (sha : Bytes → Bytes)
    (hE : CipherFam E) (hsha : GoodHash sha)
    (oid : Int) (k k' : Bytes) (hk : k.length = 32) (hk' : k'.length = 32)
    (fs : InMemFS) (c : Bytes)
    (hfresh : fsGet fs (blobPath sha ⟨oid, some k⟩ c) = none) :
    aesOpen E sha (aesWrite E sha fs ⟨oid, some k⟩ c).2 ⟨oid, some k'⟩
        (hexEncode (sha c)) =
      Except.ok (cfbDecrypt (E k') (ivBytes sha (sha c) oid)
        (cfbEncrypt (E k) (ivBytes sha (sha c) oid) c))
    ∧ (cfbDecrypt (E k') (ivBytes sha (sha c) oid)
          (cfbEncrypt (E k) (ivBytes sha (sha c) oid) c) = c ↔
        (cfbKS (E k') (ivBytes sha (sha c) oid)
            (cfbEncrypt (E k) (ivBytes sha (sha c) oid) c)).take c.length =
        (cfbKS (E k) (ivBytes sha (sha c) oid)
            (cfbEncrypt (E k) (ivBytes sha (sha c) oid) c)).take c.length) := by
  have hw := aesWrite_fresh_enc E sha fs ⟨oid, some k⟩ c k rfl (by omega) hfresh
  have hctlen : (cfbEncrypt (E k) (ivBytes sha (sha c) oid) c).length = c.length :=
    cfbEncrypt_length (E k) (hE k) c.length c _ le_rfl
  constructor
  · rw [hw]
    exact aesOpen_enc E sha _ ⟨oid, some k'⟩ (sha c) k' _ rfl (by omega) (hsha c).2
      (fsGet_fsPut_self fs _ _)
  · set ivb := ivBytes sha (sha c) oid
    set ct := cfbEncrypt (E k) ivb c with hct
    have hrt : cfbDecrypt (E k) ivb ct = c := cfb_roundtrip (E k) (hE k) ivb c
    have hdec1 : cfbDecrypt (E k') ivb ct = xorBytes ct (cfbKS (E k') ivb ct) :=
      cfbDecrypt_eq_xor_ks (E k') (hE k') ct.length ct ivb le_rfl
    have hdec2 : cfbDecrypt (E k) ivb ct = xorBytes ct (cfbKS (E k) ivb ct) :=
      cfbDecrypt_eq_xor_ks (E k) (hE k) ct.length ct ivb le_rfl
    have hlen1 : ct.length ≤ (cfbKS (E k') ivb ct).length :=
      cfbKS_length_ge (E k') (hE k') ct.length ct ivb le_rfl
    have hlen2 : ct.length ≤ (cfbKS (E k) ivb ct).length :=
      cfbKS_length_ge (E k) (hE k) ct.length ct ivb le_rfl
    have hiff := xorBytes_eq_iff_ks_eq ct (cfbKS (E k') ivb ct) (cfbKS (E k) ivb ct)
      hlen1 hlen2
    rw [hctlen] at hiff
    rw [show xorBytes ct (cfbKS (E k) ivb ct) = c from by rw [← hdec2, hrt]] at hiff
    rw [hdec1]
    exact hiff

/-- Claim C5 witness: the amended statement at a concrete nonempty content and
two concrete distinct 32-byte keys. -/
theorem c5_wrong_key_witness :
    aesOpen E0 sha0 (aesWrite E0 sha0 [] ⟨5, some key32A⟩ [1, 2, 3]).2 ⟨5, some key32B⟩
        (hexEncode (sha0 [1, 2, 3])) =
      Except.ok (cfbDecrypt (E0 key32B) (ivBytes sha0 (sha0 [1, 2, 3]) 5)
        (cfbEncrypt (E0 key32A) (ivBytes sha0 (sha0 [1, 2, 3]) 5) [1, 2, 3]))
    ∧ (cfbDecrypt (E0 key32B) (ivBytes sha0 (sha0 [1, 2, 3]) 5)
          (cfbEncrypt (E0 key32A) (ivBytes sha0 (sha0 [1, 2, 3]) 5) [1, 2, 3]) = [1, 2, 3] ↔
        (cfbKS (E0 key32B) (ivBytes sha0 (sha0 [1, 2, 3]) 5)
            (cfbEncrypt (E0 key32A) (ivBytes sha0 (sha0 [1, 2, 3]) 5) [1, 2, 3])).take
          ([1, 2, 3] : Bytes).length =
        (cfbKS (E0 key32A) (ivBytes sha0 (sha0 [1, 2, 3]) 5)
            (cfbEncrypt (E0 key32A) (ivBytes sha0 (sha0 [1, 2, 3]) 5) [1, 2, 3])).take
          ([1, 2, 3] : Bytes).length) :=
  c5_wrong_key E0 sha0 E0_fam sha0_good 5 key32A key32B (by decide) (by decide) [] [1, 2, 3] rfl

/-- Claim C6.  Read-only write rejection without side effects: `Write` on a
read-only facade fails immediately with the Permission outcome and leaves the
whole system state (blob backend and metadata store) untouched; wrapping an
already-read-only facade with `ReadOnly` returns it unchanged, so wrapping is
idempotent. -/
theorem c6_read_only (E : Bytes → Bytes → Bytes) (sha : Bytes → Bytes)
    (f g : IFS) (sys : Sys) (ts : Int) (name : Str) (c : Bytes) :
    writeFS E sha (IFS.ro f) sys ts name c = (Except.error Err.permission, sys)
    ∧ (isReadOnly g = true → mkReadOnly g = g)
    ∧ mkReadOnly (mkReadOnly f) = mkReadOnly f := by
  refine ⟨rfl, ?_, ?_⟩
  · intro hg
    rw [mkReadOnly, if_pos (by rw [hg])]
  · by_cases hf : isReadOnly f = true
    · have h1 : mkReadOnly f = f := by rw [mkReadOnly, if_pos hf]
      rw [h1, h1]
    · have h1 : mkReadOnly f = IFS.ro f := by rw [mkReadOnly, if_neg hf]
      rw [h1, mkReadOnly, if_pos (show isReadOnly (IFS.ro f) = true from rfl)]

/-- Claim C6 witness: a concrete read-only facade rejects a write and the
wrapper is idempotent on it. -/
theorem c6_read_only_witness :
    writeFS E0 sha0 (IFS.ro (IFS.base ⟨1, none⟩)) ⟨[], []⟩ 0 ('a' :: []) [7] =
      (Except.error Err.permission, (⟨[], []⟩ : Sys))
    ∧ (isReadOnly (IFS.ro (IFS.base ⟨1, none⟩)) = true →
        mkReadOnly (IFS.ro (IFS.base ⟨1, none⟩)) = IFS.ro (IFS.base ⟨1, none⟩))
    ∧ mkReadOnly (mkReadOnly (IFS.base ⟨1, none⟩)) = mkReadOnly (IFS.base ⟨1, none⟩) :=
  c6_read_only E0 sha0 (IFS.base ⟨1, none⟩) (IFS.ro (IFS.base ⟨1, none⟩)) ⟨[], []⟩ 0
    ('a' :: []) [7]

/-- Claim C8.  IV derivation: for contents `c` of an owner with a 32-byte key,
the initialization vector used when writing the encrypted blob and the one
used when opening it are the same value, equal to the first 16 bytes of
`SHA256(checksum_digest ++ little_endian_int64(owner_id))`; it is a pure
function of the checksum digest and the owner id — derived deterministically,
never random and never stored. -/
theorem c8_iv_derivation (E : Bytes → Bytes → Bytes) (sha : Bytes → Bytes)
    (hsha : GoodHash sha) (o : Owner) (k : Bytes) (hk : o.key = some k)
    (hklen : k.length = 32) (fs : InMemFS) (c : Bytes)
    (hfresh : fsGet fs (blobPath sha o c) = none) :
    ivBytes sha (sha c) o.id = (sha ((sha c) ++ int64LE o.id)).take 16
    ∧ aesWrite E sha fs o c =
        (Except.ok (hexEncode (sha c)),
         fsPut fs (blobPath sha o c)
           (cfbEncrypt (E k) (ivBytes sha (sha c) o.id) c))
    ∧ (∀ fs' v, fsGet fs' (blobPath sha o c) = some v →
        aesOpen E sha fs' o (hexEncode (sha c)) =
          Except.ok (cfbDecrypt (E k) (ivBytes sha (sha c) o.id) v)) := by
  refine ⟨rfl, aesWrite_fresh_enc E sha fs o c k hk (by omega) hfresh, ?_⟩
  intro fs' v hv
  exact aesOpen_enc E sha fs' o (sha c) k v hk (by omega) (hsha c).2 hv

/-- Claim C8 witness: the IV equations at a concrete content, key and owner. -/
theorem c8_iv_derivation_witness :
    ivBytes sha0 (sha0 [1, 2]) (9 : Int) = (sha0 ((sha0 [1, 2]) ++ int64LE 9)).take 16
    ∧ aesWrite E0 sha0 [] ⟨9, some key32A⟩ [1, 2] =
        (Except.ok (hexEncode (sha0 [1, 2])),
         fsPut [] (blobPath sha0 ⟨9, some key32A⟩ [1, 2])
           (cfbEncrypt (E0 key32A) (ivBytes sha0 (sha0 [1, 2]) 9) [1, 2]))
    ∧ (∀ fs' v, fsGet fs' (blobPath sha0 ⟨9, some key32A⟩ [1, 2]) = some v →
        aesOpen E0 sha0 fs' ⟨9, some key32A⟩ (hexEncode (sha0 [1, 2])) =
          Except.ok (cfbDecrypt (E0 key32A) (ivBytes sha0 (sha0 [1, 2]) 9) v)) :=
  c8_iv_derivation E0 sha0 sha0_good ⟨9, some key32A⟩ key32A rfl (by decide) [] [1, 2] rfl

/-- Claim C7.  List semantics: `List` looks up exactly the ids marked true
(the result only depends on the lookup's values at the true-marked ids, and
false-marked pairs can be dropped without changing it); an id whose lookup
yields `ErrNoSuchId` is silently omitted; any other lookup error aborts the
whole call, returning that error and no entries; a successful result is sorted
ascending by id; and when lookups only succeed or report `ErrNoSuchId`, the
result is independent of the iteration order of the id map. -/
theorem c7_list_semantics (lookup : Int → Except Err Entry) (ids : List (Int × Bool))
    (store : FakeStore) (o : Owner) :
    ifsList store o ids = listG (fun id => entryById store id o.id) ids
    ∧ listG lookup ids = listG lookup (ids.filter (fun p => p.2))
    ∧ (∀ lookup2, (∀ id, (id, true) ∈ ids → lookup id = lookup2 id) →
        listG lookup ids = listG lookup2 ids)
    ∧ (∀ id rest, lookup id = Except.error Err.noSuchId →
        listG lookup ((id, true) :: rest) = listG lookup rest)
    ∧ (∀ l, listG lookup ids = Except.ok l →
        List.Pairwise (fun a b => a.id ≤ b.id) l)
    ∧ (∀ x id, x ≠ Err.noSuchId → (id, true) ∈ ids → lookup id = Except.error x →
        (∀ j y, (j, true) ∈ ids → lookup j = Except.error y → y = x) →
        listG lookup ids = Except.error x)
    ∧ (∀ ids2, List.Perm ids ids2 →
        (∀ id, (id, true) ∈ ids →
          (∃ e, lookup id = Except.ok e) ∨ lookup id = Except.error Err.noSuchId) →
        (∀ id e, lookup id = Except.ok e → e.id = id) →
        (ids.map Prod.fst).Nodup →
        listG lookup ids = listG lookup ids2) := by
  refine ⟨rfl, ?_, ?_, ?_, ?_, ?_, ?_⟩
  · rw [listG, listG, listLoop_filter]
  · intro lookup2 hagree
    rw [listG, listG, listLoop_congr lookup lookup2 ids hagree]
  · intro id rest hnf
    rw [listG, listG, listLoop, hnf]
  · intro l hl
    exact listG_sorted lookup ids l hl
  · intro x id hx hmem hid hothers
    rw [listG, listLoop_abort lookup x hx ids id hmem hid hothers]
    rfl
  · intro ids2 hperm hok hid hnd
    exact listG_perm lookup ids ids2 hperm hok hid hnd

/-- Claim C7 witness: the list semantics at a concrete store, owner and id map. -/
theorem c7_list_semantics_witness :
    ifsList [⟨1, ('a' :: []), 1, 0, 1, ('0' :: '1' :: [])⟩] ⟨1, none⟩
        [(2, true), (1, true), (3, false)] =
      listG (fun id => entryById [⟨1, ('a' :: []), 1, 0, 1, ('0' :: '1' :: [])⟩] id 1)
        [(2, true), (1, true), (3, false)]
    ∧ listG (fun id => entryById [⟨1, ('a' :: []), 1, 0, 1, ('0' :: '1' :: [])⟩] id 1)
        [(2, true), (1, true), (3, false)] =
      listG (fun id => entryById [⟨1, ('a' :: []), 1, 0, 1, ('0' :: '1' :: [])⟩] id 1)
        ([(2, true), (1, true), (3, false)].filter (fun p => p.2))
    ∧ listG (fun id => entryById [⟨1, ('a' :: []), 1, 0, 1, ('0' :: '1' :: [])⟩] id 1)
        [(2, true), (1, true), (3, false)] =
      listG (fun id => entryById [⟨1, ('a' :: []), 1, 0, 1, ('0' :: '1' :: [])⟩] id 1)
        [(1, true), (2, true), (3, false)] := by
  have h := c7_list_semantics
    (fun id => entryById [⟨1, ('a' :: []), 1, 0, 1, ('0' :: '1' :: [])⟩] id 1)
    [(2, true), (1, true), (3, false)]
    [⟨1, ('a' :: []), 1, 0, 1, ('0' :: '1' :: [])⟩] ⟨1, none⟩
  have hok : ∀ (id : Int), (id, true) ∈ ([(2, true), (1, true), (3, false)] : List (Int × Bool)) →
      (∃ e, entryById [⟨1, ('a' :: []), 1, 0, 1, ('0' :: '1' :: [])⟩] id 1 = Except.ok e) ∨
        entryById [⟨1, ('a' :: []), 1, 0, 1, ('0' :: '1' :: [])⟩] id 1 =
          Except.error Err.noSuchId := by
    intro id hmem
    simp only [List.mem_cons, List.mem_singleton] at hmem
    rcases hmem with h1 | h1 | h1
    · have ha : id = 2 := by
        injection h1 with ha hb
      subst ha
      right
      decide
    · have ha : id = 1 := by
        injection h1 with ha hb
      subst ha
      left
      exact ⟨⟨1, ('a' :: []), 1, 0, 1, ('0' :: '1' :: [])⟩, by decide⟩
    · exfalso
      rcases h1 with h1 | h1
      · injection h1 with ha hb
        cases hb
      · simp at h1
  have hid : ∀ (id : Int) (e : Entry),
      entryById [⟨1, ('a' :: []), 1, 0, 1, ('0' :: '1' :: [])⟩] id 1 = Except.ok e →
        e.id = id := by
    intro id e hle
    have hb := entryById_ok_bounds _ id 1 e hle
    obtain ⟨h1, h2, h3, hi, hget⟩ := hb
    rw [List.get_singleton] at hget
    have h2a : id ≤ 1 := by simpa using h2
    rw [← hget]
    show (1 : Int) = id
    omega
  exact ⟨h.1, h.2.1, h.2.2.2.2.2.2 [(1, true), (2, true), (3, false)]
    (List.Perm.swap (1, true) (2, true) [(3, false)]) hok hid (by decide)⟩

/-- Claim C9 counterexample to the claim as stated: the canonical path of the
stored entry is `"1/a"`, yet `open` also accepts the spelling `"01/a"` (and
`"+1/a"`), because `strconv.ParseInt` accepts leading zeros and an explicit
sign — the canonical decimal rendering is not the only accepted spelling. -/
theorem c9_counterexample :
    openFS E0 sha0 (IFS.base ⟨7, none⟩)
        (writeFS E0 sha0 (IFS.base ⟨7, none⟩) ⟨[], []⟩ 0 ('a' :: []) [9]).2
        ('0' :: '1' :: '/' :: 'a' :: []) =
      Except.ok (writtenEntry sha0 ⟨7, none⟩ 0 0 ('a' :: []) [9], [9])
    ∧ openFS E0 sha0 (IFS.base ⟨7, none⟩)
        (writeFS E0 sha0 (IFS.base ⟨7, none⟩) ⟨[], []⟩ 0 ('a' :: []) [9]).2
        ('+' :: '1' :: '/' :: 'a' :: []) =
      Except.ok (writtenEntry sha0 ⟨7, none⟩ 0 0 ('a' :: []) [9], [9])
    ∧ ('0' :: '1' :: '/' :: 'a' :: []) ≠
        entryPath (writtenEntry sha0 ⟨7, none⟩ 0 0 ('a' :: []) [9]) := by
  refine ⟨by decide, by decide, by decide⟩

/-- Claim C9 (amended).  Logical path format: `open` succeeds only for a path
that is a clean relative path of exactly two slash-separated segments whose
first segment parses as a base-10 signed 64-bit integer under Go `ParseInt`
rules (optional sign, leading zeros allowed), whose parsed value is the id of
an entry of this owner — hence a positive integer — and whose second segment
equals that entry's name exactly.  Because `ParseInt` accepts non-canonical
spellings, paths like `"01/name"` or `"+1/name"` are accepted in addition to
the canonical decimal rendering. -/
theorem c9_path_format (E : Bytes → Bytes → Bytes) (sha : Bytes → Bytes)
    (fs : InMemFS) (store : FakeStore) (o : Owner) (name : Str)
    (e : Entry) (b : Bytes)
    (h : ifsOpen E sha fs store o name = Except.ok (e, b)) :
    validPath name = true
    ∧ ∃ seg id, splitSlash name = [seg, e.name] ∧ parseInt64 seg = some id
      ∧ 1 ≤ id ∧ entryById store id o.id = Except.ok e := by
  obtain ⟨id, hp, he, _⟩ := ifsOpen_ok_inv E sha fs store o name e b h
  obtain ⟨hv, _, _, seg, hsp, hpi⟩ := parsePath_some_inv name id e.name hp
  obtain ⟨h1, _⟩ := entryById_ok_bounds store id o.id e he
  exact ⟨hv, seg, id, hsp, hpi, h1, he⟩

/-- Claim C9 witness: the amended format characterization at a concrete
successful open. -/
theorem c9_path_format_witness :
    validPath ('1' :: '/' :: 'a' :: []) = true
    ∧ ∃ seg id, splitSlash ('1' :: '/' :: 'a' :: []) =
        [seg, (writtenEntry sha0 ⟨7, none⟩ 0 0 ('a' :: []) [9]).name]
      ∧ parseInt64 seg = some id ∧ 1 ≤ id
      ∧ entryById (writeFS E0 sha0 (IFS.base ⟨7, none⟩) ⟨[], []⟩ 0 ('a' :: []) [9]).2.store
          id 7 = Except.ok (writtenEntry sha0 ⟨7, none⟩ 0 0 ('a' :: []) [9]) :=
  c9_path_format E0 sha0
    (writeFS E0 sha0 (IFS.base ⟨7, none⟩) ⟨[], []⟩ 0 ('a' :: []) [9]).2.fs
    (writeFS E0 sha0 (IFS.base ⟨7, none⟩) ⟨[], []⟩ 0 ('a' :: []) [9]).2.store
    ⟨7, none⟩ ('1' :: '/' :: 'a' :: [])
    (writtenEntry sha0 ⟨7, none⟩ 0 0 ('a' :: []) [9]) [9] (by decide)

theorem validPath_two_bad (a x : Str) (ha : a ≠ []) (hsl : '/' ∉ a) (hxs : '/' ∉ x)
    (hx : validElem x = false) : validPath (a ++ '/' :: x) = false := by
  have hsp : splitSlash (a ++ '/' :: x) = [a, x] := by
    rw [splitSlash_append _ _ hsl, splitSlash_no_slash x hxs]
  rw [validPath, hsp]
  have h1 : decide ((a ++ '/' :: x) = ['.']) = false := by
    apply decide_eq_false
    intro hcontra
    have hlen := congrArg List.length hcontra
    simp only [List.length_append, List.length_cons, List.length_singleton,
      List.length_nil] at hlen
    have hpos : 0 < a.length := List.length_pos.mpr ha
    omega
  have h2 : ([a, x].all validElem) = false := by
    simp only [List.all_cons, List.all_nil, Bool.and_true, hx, Bool.and_false]
  rw [h1, h2]
  rfl

/-- Claim C10.  `Write` does not validate the logical name: for a name
containing `'/'` (or equal to `""`, `"."` or `".."`), `Write` succeeds and
permanently records the entry, yet no input string whatsoever makes `Open`
return that entry — any successful open returns an entry whose name is a
valid slash-free path element, which such a name is not — and in particular
opening the entry's own `Path()` fails with the NotFound outcome. -/
theorem c10_orphaned_names (E : Bytes → Bytes → Bytes) (sha : Bytes → Bytes)
    (o : Owner) (hov : ValidOwner o) (sys : Sys) (ts : Int) (name : Str)
    (c : Bytes)
    (hbad : '/' ∈ name ∨ name = [] ∨ name = ['.'] ∨ name = ['.', '.']) :
    ∃ fs',
      writeFS E sha (IFS.base o) sys ts name c =
        (Except.ok ((sys.store.length : Int) + 1),
         { fs := fs',
           store := sys.store ++ [writtenEntry sha o sys.store.length ts name c] })
      ∧ (∀ (fs2 : InMemFS) (store2 : FakeStore) (s : Str) (e : Entry) (b : Bytes),
          ifsOpen E sha fs2 store2 o s = Except.ok (e, b) → e.name ≠ name)
      ∧ ifsOpen E sha fs'
          (sys.store ++ [writtenEntry sha o sys.store.length ts name c]) o
          (entryPath (writtenEntry sha o sys.store.length ts name c)) =
        Except.error (openErr
          (entryPath (writtenEntry sha o sys.store.length ts name c))) := by
  obtain ⟨fs', hw⟩ := ifsWrite_ok E sha sys o hov ts name c
  have hnoopen : ∀ (fs2 : InMemFS) (store2 : FakeStore) (s : Str) (e : Entry) (b : Bytes),
      ifsOpen E sha fs2 store2 o s = Except.ok (e, b) → e.name ≠ name := by
    intro fs2 store2 s e b hopen hc
    obtain ⟨id, hp, _, _⟩ := ifsOpen_ok_inv E sha fs2 store2 o s e b hopen
    obtain ⟨_, hvalid, hnoslash, seg, hsp, _⟩ := parsePath_some_inv s id e.name hp
    rcases hbad with hb | hb | hb | hb
    · exact hnoslash (hc ▸ hb)
    · rw [hc, hb] at hvalid
      simp [validElem] at hvalid
    · rw [hc, hb] at hvalid
      simp [validElem] at hvalid
    · rw [hc, hb] at hvalid
      simp [validElem] at hvalid
  have hpathfail : parsePath (entryPath (writtenEntry sha o sys.store.length ts name c)) =
      none := by
    have hid : (writtenEntry sha o sys.store.length ts name c).id =
        (sys.store.length : Int) + 1 := rfl
    have hname : (writtenEntry sha o sys.store.length ts name c).name = name := rfl
    have hdec : intToDec ((sys.store.length : Int) + 1) =
        natDec ((sys.store.length : Int) + 1).toNat := intToDec_nonneg _ (by omega)
    rcases hbad with hb | hb | hb | hb
    · apply parsePath_eq_none_not_two
      rw [entryPath, hid, hname, hdec, splitSlash_append _ _ (natDec_no_slash _)]
      have h2 := two_le_splitSlash_length_of_slash name hb
      simp only [List.length_cons]
      omega
    · apply parsePath_eq_none_of_invalid
      rw [entryPath, hid, hname, hdec, hb]
      exact validPath_two_bad _ [] (natDec_ne_nil _) (natDec_no_slash _) (by simp) (by decide)
    · apply parsePath_eq_none_of_invalid
      rw [entryPath, hid, hname, hdec, hb]
      exact validPath_two_bad _ ['.'] (natDec_ne_nil _) (natDec_no_slash _) (by decide)
        (by decide)
    · apply parsePath_eq_none_of_invalid
      rw [entryPath, hid, hname, hdec, hb]
      exact validPath_two_bad _ ['.', '.'] (natDec_ne_nil _) (natDec_no_slash _) (by decide)
        (by decide)
  refine ⟨fs', ?_, hnoopen, ?_⟩
  · show ifsWrite E sha sys o ts name c = _
    exact hw
  · exact ifsOpen_parse_fail E sha _ _ o _ hpathfail

/-- Claim C10 witness: the orphaned-entry behavior at the concrete name
`"a/b"`. -/
theorem c10_orphaned_names_witness :
    ∃ fs',
      writeFS E0 sha0 (IFS.base ⟨1, none⟩) ⟨[], []⟩ 0 ('a' :: '/' :: 'b' :: []) [7] =
        (Except.ok ((([] : FakeStore).length : Int) + 1),
         { fs := fs',
           store := [] ++ [writtenEntry sha0 ⟨1, none⟩ ([] : FakeStore).length 0
             ('a' :: '/' :: 'b' :: []) [7]] })
      ∧ (∀ (fs2 : InMemFS) (store2 : FakeStore) (s : Str) (e : Entry) (b : Bytes),
          ifsOpen E0 sha0 fs2 store2 ⟨1, none⟩ s = Except.ok (e, b) →
          e.name ≠ ('a' :: '/' :: 'b' :: []))
      ∧ ifsOpen E0 sha0 fs'
          ([] ++ [writtenEntry sha0 ⟨1, none⟩ ([] : FakeStore).length 0
            ('a' :: '/' :: 'b' :: []) [7]]) ⟨1, none⟩
          (entryPath (writtenEntry sha0 ⟨1, none⟩ ([] : FakeStore).length 0
            ('a' :: '/' :: 'b' :: []) [7])) =
        Except.error (openErr
          (entryPath (writtenEntry sha0 ⟨1, none⟩ ([] : FakeStore).length 0
            ('a' :: '/' :: 'b' :: []) [7]))) :=
  c10_orphaned_names E0 sha0 ⟨1, none⟩ (Or.inl rfl) ⟨[], []⟩ 0
    ('a' :: '/' :: 'b' :: []) [7] (Or.inl (by decide))

end Attachments
